import Mathlib

/-!
Formal model of the TMCP dataflow runtime (tmcp / tmcpl repository).

The definitions below are shallow embeddings of the JavaScript sources
(`lib/pipeline-core.js`, `lib/pipeline-config.js`, `lib/pipeline-stream.js`,
`tmcp-control-minrate.js`, `tmcp-control-merge-streams.js`,
`tmcp-control-delay.js`, `tmcp-transformer-reduce.js`, `tmcp-control-dedup.js`,
and the `minimist` argv parser those sources delegate to).

Modelling conventions:
* JSON-compatible JavaScript values are the type `JVal`; JS objects are
  ordered field sequences (insertion order, first-key-wins lookup, in-place
  update on re-assignment — exactly how JS object literals, spreads and
  property assignment behave).
* JS numbers are modelled as `ℚ`; every number reaching the modelled code
  paths originates from a JSON literal or CLI text and is finite.  Arithmetic
  inside definitions uses the kernel-computable wrappers `qadd`, `qsub`,
  `qmul`, `qdiv`, `qneg`, `qabs` below, each proved equal to the corresponding
  field operation on `ℚ`, so that closed instances evaluate by `decide`.
* Wall-clock reads (`Date.now()`) are threaded as explicit parameters.
* `structuredClone` on immutable model values is the identity and is not
  given a separate definition; where the source clones before storing, the
  model stores the value itself.
-/

/- ------------------------------------------------------------------------ -/
/- Kernel-computable rational arithmetic                                     -/
/- ------------------------------------------------------------------------ -/

/-- Rational addition, computed through `Rat.divInt` so that the kernel can
evaluate it (the `+` of `ℚ` does not reduce by `decide`). -/
def qadd (a b : ℚ) : ℚ := Rat.divInt (a.num * b.den + b.num * a.den) (a.den * b.den)

/-- Rational subtraction, kernel-computable. -/
def qsub (a b : ℚ) : ℚ := Rat.divInt (a.num * b.den - b.num * a.den) (a.den * b.den)

/-- Rational multiplication, kernel-computable. -/
def qmul (a b : ℚ) : ℚ := Rat.divInt (a.num * b.num) (a.den * b.den)

/-- Rational division, kernel-computable.  Division by zero yields `0`,
matching Mathlib's convention for `/` on `ℚ`; the modelled code paths divide
only by nonzero values. -/
def qdiv (a b : ℚ) : ℚ := Rat.divInt (a.num * b.den) (a.den * b.num)

/-- Rational negation, kernel-computable. -/
def qneg (a : ℚ) : ℚ := Rat.divInt (-a.num) a.den

/-- Rational absolute value, kernel-computable (JS `Math.abs`). -/
def qabs (a : ℚ) : ℚ := if a < 0 then qneg a else a

/- ------------------------------------------------------------------------ -/
/- Characters, strings, and JS number-to-string conversion                   -/
/- ------------------------------------------------------------------------ -/

/-- The characters of a string (JS strings are modelled through `String`,
manipulated as character lists so every operation kernel-reduces). -/
def strChars (s : String) : List Char := s.data

/-- Build a string back from characters. -/
def strOfChars (cs : List Char) : String := String.mk cs

/-- Decimal digit character for a value `0 ≤ d ≤ 9`. -/
def decDigitChar (d : Nat) : Char := Char.ofNat (48 + d)

/-- Decimal digit characters of `n`, most significant first; `fuel` bounds the
recursion (any `fuel ≥ n` is exact).  Structural on `fuel` so it reduces. -/
def natDigitsAux : Nat → Nat → List Char
  | 0, _ => []
  | fuel + 1, n =>
      if n = 0 then [] else natDigitsAux fuel (n / 10) ++ [decDigitChar (n % 10)]

/-- Decimal rendering of a natural number. -/
def natToString (n : Nat) : String :=
  if n = 0 then "0" else strOfChars (natDigitsAux (n + 1) n)

/-- Decimal rendering of an integer (JS `String(i)` for integral values). -/
def intToString : Int → String
  | .ofNat n => natToString n
  | .negSucc n => strOfChars ('-' :: strChars (natToString (n + 1)))

/-- JS number-to-string conversion as used by string concatenation.  The
modelled code paths apply it only to integral values (timestamps in
milliseconds); the non-integral branch renders `num/den`, which no modelled
path reaches. -/
def jsNumToString (q : ℚ) : String :=
  if q.den = 1 then intToString q.num
  else strOfChars (strChars (intToString q.num) ++ '/' :: strChars (natToString q.den))

/- ------------------------------------------------------------------------ -/
/- JavaScript values                                                         -/
/- ------------------------------------------------------------------------ -/

mutual

/-- A JavaScript value as it flows through the TMCP pipeline.  `vundef` is JS
`undefined` (absent properties, unset variables); `vnull` is JSON `null`.
Arrays and objects carry their elements in order. -/
inductive JVal where
  | vundef
  | vnull
  | vbool (b : Bool)
  | vnum (x : ℚ)
  | vstr (s : String)
  | varr (elems : JArr)
  | vobj (fields : JObj)
deriving DecidableEq, Repr

/-- The element sequence of a JS array. -/
inductive JArr where
  | anil
  | acons (head : JVal) (tail : JArr)
deriving DecidableEq, Repr

/-- The ordered field sequence of a JS object (JS preserves string-key
insertion order; keys are unique). -/
inductive JObj where
  | onil
  | ocons (key : String) (val : JVal) (tail : JObj)
deriving DecidableEq, Repr

end

namespace JArr

/-- Array from a Lean list. -/
def ofList : List JVal → JArr
  | [] => .anil
  | v :: rest => .acons v (ofList rest)

/-- Lean list of the array's elements. -/
def toList : JArr → List JVal
  | .anil => []
  | .acons v rest => v :: toList rest

/-- Number of elements. -/
def length : JArr → Nat
  | .anil => 0
  | .acons _ rest => length rest + 1

end JArr

namespace JObj

/-- Object from a Lean association list. -/
def ofList : List (String × JVal) → JObj
  | [] => .onil
  | (k, v) :: rest => .ocons k v (ofList rest)

/-- Lean association list of the object's fields. -/
def toList : JObj → List (String × JVal)
  | .onil => []
  | .ocons k v rest => (k, v) :: toList rest

/-- Property read `obj[key]`: first match wins; `none` models the JS
`undefined` produced by reading an absent property. -/
def jget : JObj → String → Option JVal
  | .onil, _ => none
  | .ocons k v rest, key => if k = key then some v else jget rest key

/-- Property write `obj[key] = v`: updates in place when the key exists
(keeping its position, as JS does) and appends otherwise.  Also the model of
a literal field following a spread, `\x7b...src, key: v\x7d`. -/
def jset : JObj → String → JVal → JObj
  | .onil, key, v => .ocons key v .onil
  | .ocons k w rest, key, v =>
      if k = key then .ocons k v rest else .ocons k w (jset rest key v)

/-- The keys of an object in order (JS `Object.keys`). -/
def okeys : JObj → List String
  | .onil => []
  | .ocons k _ rest => k :: okeys rest

/-- Key-membership test (JS `key in obj`). -/
def hasKey (o : JObj) (key : String) : Bool :=
  (jget o key).isSome

/-- Number of fields. -/
def length : JObj → Nat
  | .onil => 0
  | .ocons _ _ rest => length rest + 1

end JObj

namespace JVal

/-- Read `record.meta` style access: property of a value that may not be an
object; non-objects yield `undefined` (the modelled sources only read
properties of values already known to be objects or guarded by checks). -/
def pget : JVal → String → Option JVal
  | .vobj fields, key => JObj.jget fields key
  | _, _ => none

/-- JS truthiness restricted to the checks the modelled sources perform
(`!obj.meta`-style guards): `undefined`, `null`, `false`, `0`, and the empty
string are falsy. -/
def truthy : JVal → Bool
  | .vundef => false
  | .vnull => false
  | .vbool b => b
  | .vnum x => decide (x ≠ 0)
  | .vstr s => decide (s ≠ "")
  | .varr _ => true
  | .vobj _ => true

/-- JS `typeof v === "object"` (true for objects, arrays and `null`). -/
def typeofIsObject : JVal → Bool
  | .vobj _ => true
  | .varr _ => true
  | .vnull => true
  | _ => false

/-- JS `typeof v === "number"`. -/
def isNum : JVal → Bool
  | .vnum _ => true
  | _ => false

/-- JS `Array.isArray`. -/
def isArr : JVal → Bool
  | .varr _ => true
  | _ => false

/-- `typeof v === "number" && Number.isFinite(v)`: every `ℚ` is finite, so
this coincides with `isNum` (JS `NaN`/`Infinity` never arise from the JSON
and CLI inputs the model covers). -/
def isFiniteNum : JVal → Bool
  | .vnum _ => true
  | _ => false

end JVal

/-- Concatenation of array element sequences (JS `[...xs, ...ys]`, and the
recursion behind `push`). -/
def JArr.append : JArr → JArr → JArr
  | .anil, ys => ys
  | .acons x xs, ys => .acons x (JArr.append xs ys)

/- ------------------------------------------------------------------------ -/
/- lib/pipeline-core.js : normalizeObject / createMeta / appendTag           -/
/- ------------------------------------------------------------------------ -/

/-- `normalizeObject(value)` from `lib/pipeline-core.js`.  A non-object (or
`null`) is wrapped as `\x7bmeta: \x7b\x7d, data: \x7bvalue: obj\x7d\x7d`; then `meta` and `data`
are replaced by `\x7b\x7d` unless they are truthy objects, and `meta.pipeline` is
set to `[]` unless it is already an array.  An array input (`typeof` is
`"object"`, so it is not wrapped) only acquires expando properties, which are
invisible to the JSON serialization `safeWrite` performs; the model therefore
returns it unchanged, and likewise leaves an array-valued `meta` untouched by
the `pipeline` step. -/
def normalizeObject (v : JVal) : JVal :=
  match v with
  | .vobj fields => .vobj (normPipelineStep (normDataStep (normMetaStep fields)))
  | .varr elems => .varr elems
  | other =>
      .vobj (.ofList
        [("meta", .vobj (.ofList [("pipeline", .varr .anil)])),
         ("data", .vobj (.ofList [("value", other)]))])
where
  /-- `if (!obj.meta || typeof obj.meta !== "object") obj.meta = \x7b\x7d;` -/
  normMetaStep (fields : JObj) : JObj :=
    match JObj.jget fields "meta" with
    | some m =>
        if m.truthy && m.typeofIsObject then fields
        else JObj.jset fields "meta" (.vobj .onil)
    | none => JObj.jset fields "meta" (.vobj .onil)
  /-- `if (!obj.data || typeof obj.data !== "object") obj.data = \x7b\x7d;` -/
  normDataStep (fields : JObj) : JObj :=
    match JObj.jget fields "data" with
    | some d =>
        if d.truthy && d.typeofIsObject then fields
        else JObj.jset fields "data" (.vobj .onil)
    | none => JObj.jset fields "data" (.vobj .onil)
  /-- `if (!Array.isArray(obj.meta.pipeline)) obj.meta.pipeline = [];` -/
  normPipelineStep (fields : JObj) : JObj :=
    match JObj.jget fields "meta" with
    | some (.vobj mfields) =>
        (match JObj.jget mfields "pipeline" with
         | some (.varr _) => fields
         | _ =>
             JObj.jset fields "meta"
               (.vobj (JObj.jset mfields "pipeline" (.varr .anil))))
    | _ => fields

/-- `createMeta(tag)` from `lib/pipeline-core.js`.  `tagOn` is the resolved
process-wide `--do-tag` flag (`tagEnabled()` in the source) and `now` the
`Date.now()` reading. -/
def createMeta (tagOn : Bool) (now : ℚ) (tag : String) : JObj :=
  .ofList
    [("timestamp", .vnum now),
     ("pipeline", .varr (if tagOn then .acons (.vstr tag) .anil else .anil))]

/-- `appendTag(meta, tag)` from `lib/pipeline-core.js`, as the function from
the incoming `meta` value to the mutated one.  With tagging disabled, or a
non-object `meta`, it returns the argument untouched; an array-valued `meta`
would only gain an expando property invisible to serialization and is also
returned unchanged. -/
def appendTag (tagOn : Bool) (meta : JVal) (tag : String) : JVal :=
  if !tagOn then meta
  else if !(meta.truthy && meta.typeofIsObject) then meta
  else
    match meta with
    | .vobj mf =>
        let pl :=
          match JObj.jget mf "pipeline" with
          | some (.varr xs) => xs
          | _ => .anil
        .vobj (JObj.jset mf "pipeline" (.varr (JArr.append pl (.acons (.vstr tag) .anil))))
    | other => other

/- ------------------------------------------------------------------------ -/
/- lib/pipeline-stream.js : safeWrite canonicalization and channel policy    -/
/- ------------------------------------------------------------------------ -/

/-- The record actually emitted by `safeWrite(obj, ...)`: the source computes
`canonical = normalizeObject(obj)` and serializes exactly that value (NDJSON
`JSON.stringify(canonical)` or the MessagePack encoding). -/
def safeWriteCanonical (obj : JVal) : JVal := normalizeObject obj

/-- The `fdOrStream` argument of `safeRead` / `safeWrite`: `undefined`/`null`,
one of the three standard streams, a numeric file descriptor, a path string,
or some other stream object. -/
inductive StreamTarget where
  | tnone
  | tstdin
  | tstdout
  | tstderr
  | tfd (n : Nat)
  | tpath (p : String)
  | tstream
deriving DecidableEq, Repr

/-- Direction of a transport operation. -/
inductive StreamDir where
  | read
  | write
deriving DecidableEq, Repr

/-- `isStdoutLike(target)` from `lib/pipeline-stream.js`. -/
def isStdoutLike : StreamTarget → Bool
  | .tnone => true
  | .tstdout => true
  | .tfd 1 => true
  | _ => false

/-- `isStderrLike(target)` from `lib/pipeline-stream.js`. -/
def isStderrLike : StreamTarget → Bool
  | .tstderr => true
  | .tfd 2 => true
  | _ => false

/-- `isStdinLike(target)` from `lib/pipeline-stream.js`. -/
def isStdinLike : StreamTarget → Bool
  | .tnone => true
  | .tstdin => true
  | .tfd 0 => true
  | _ => false

/-- `inferChannelId(fdOrStream, explicitChannelId, direction)` from
`lib/pipeline-stream.js`.  An explicit channel id is used when it is a truthy
string (so the empty string falls through to inference). -/
def inferChannelId (fdOrStream : StreamTarget) (explicitChannelId : Option String)
    (dir : StreamDir) : Option String :=
  match explicitChannelId with
  | some s =>
      if s ≠ "" then some s
      else inferChannelId0 fdOrStream dir
  | none => inferChannelId0 fdOrStream dir
where
  /-- The direction-based inference used when no explicit id applies. -/
  inferChannelId0 (fdOrStream : StreamTarget) (dir : StreamDir) : Option String :=
    match dir with
    | .read => if isStdinLike fdOrStream then some "stdin" else none
    | .write =>
        if isStdoutLike fdOrStream then some "stdout"
        else if isStderrLike fdOrStream then some "stderr"
        else none

/-- The `options` object accepted by `safeRead` / `safeWrite`: `some b`
models a field whose value has `typeof === "boolean"`; `none` models an
absent (or non-boolean) field. -/
structure ChannelOptions where
  channelId : Option String := none
  exitOnClose : Option Bool := none
  retry : Option Bool := none
  linger : Option Bool := none
deriving DecidableEq, Repr

/-- The effective per-operation policy returned by
`resolveChannelPolicies`. -/
structure ChannelPolicy where
  channelId : Option String
  exitOnClose : Bool
  retry : Bool
deriving DecidableEq, Repr

/-- `resolveChannelPolicies(direction, fdOrStream, options)` from
`lib/pipeline-stream.js`.  `exitOverrides` / `retryOverrides` are the global
per-channel maps parsed once from `--exit-on-close` / `--retry`.  The source
applies, in order: the built-in default for the inferred channel, then the
module-supplied `exitOnClose` option — or, only when that option is not a
boolean, the legacy `linger` alias (`exitOnClose = !linger`) — then the
global per-channel override. -/
def resolveChannelPolicies (dir : StreamDir) (fdOrStream : StreamTarget)
    (options : ChannelOptions)
    (exitOverrides retryOverrides : List (String × Bool)) : ChannelPolicy :=
  let channelId := inferChannelId fdOrStream options.channelId dir
  let exitDefault : Bool :=
    match dir with
    | .read => channelId == some "stdin"
    | .write => channelId == some "stdout" || channelId == some "stderr"
  let exit1 :=
    match options.exitOnClose with
    | some b => b
    | none =>
        match options.linger with
        | some l => !l
        | none => exitDefault
  let retry1 :=
    match options.retry with
    | some b => b
    | none => false
  let exit2 :=
    match channelId with
    | some cid =>
        if cid ≠ "" then
          match exitOverrides.lookup cid with
          | some b => b
          | none => exit1
        else exit1
    | none => exit1
  let retry2 :=
    match channelId with
    | some cid =>
        if cid ≠ "" then
          match retryOverrides.lookup cid with
          | some b => b
          | none => retry1
        else retry1
    | none => retry1
  { channelId := channelId, exitOnClose := exit2, retry := retry2 }

/- ------------------------------------------------------------------------ -/
/- The `minimist` argv parser (dependency of lib/pipeline-config.js)         -/
/- ------------------------------------------------------------------------ -/

/-- Decimal digit test (`\d` in minimist's regexes). -/
def isDigitChar (c : Char) : Bool := 48 ≤ c.toNat && c.toNat ≤ 57

/-- Hexadecimal digit test (`[0-9a-f]` with the `i` flag). -/
def isHexDigitChar (c : Char) : Bool :=
  isDigitChar c || (97 ≤ c.toNat && c.toNat ≤ 102) || (65 ≤ c.toNat && c.toNat ≤ 70)

/-- ASCII letter test (`[A-Za-z]`). -/
def isAsciiLetterChar (c : Char) : Bool :=
  (65 ≤ c.toNat && c.toNat ≤ 90) || (97 ≤ c.toNat && c.toNat ≤ 122)

/-- Word-character test (`\w`; `\W` is its negation). -/
def isWordChar (c : Char) : Bool :=
  isAsciiLetterChar c || isDigitChar c || c = '_'

/-- Value of a decimal digit character. -/
def decDigitVal (c : Char) : Nat := c.toNat - 48

/-- Value of a hexadecimal digit character (either case). -/
def hexDigitVal (c : Char) : Nat :=
  if isDigitChar c then c.toNat - 48
  else if 97 ≤ c.toNat then c.toNat - 87
  else c.toNat - 55

/-- Natural number denoted by a digit list (most significant first). -/
def decDigitsVal : List Char → Nat
  | [] => 0
  | cs => decDigitsValAux 0 cs
where
  /-- Accumulator form of the decimal evaluation. -/
  decDigitsValAux (acc : Nat) : List Char → Nat
    | [] => acc
    | c :: rest => decDigitsValAux (acc * 10 + decDigitVal c) rest

/-- Natural number denoted by a hex digit list (most significant first). -/
def hexDigitsVal : List Char → Nat
  | cs => hexDigitsValAux 0 cs
where
  /-- Accumulator form of the hexadecimal evaluation. -/
  hexDigitsValAux (acc : Nat) : List Char → Nat
    | [] => acc
    | c :: rest => hexDigitsValAux (acc * 16 + hexDigitVal c) rest

/-- Structural power of ten (kernel-computable). -/
def pow10 : Nat → Int
  | 0 => 1
  | n + 1 => 10 * pow10 n

/-- minimist's `isNumber(x)` for a string argument: the anchored regexes
`/^0x[0-9a-f]+$/i` and `/^[-+]?(?:\d+(?:\.\d*)?|\.\d+)(e[-+]?\d+)?$/`. -/
def isNumberStr (s : String) : Bool :=
  isHexLit (strChars s) || isDecLit (strChars s)
where
  /-- `/^0x[0-9a-f]+$/i`. -/
  isHexLit : List Char → Bool
    | '0' :: x :: rest =>
        (x = 'x' || x = 'X') && !rest.isEmpty && rest.all isHexDigitChar
    | _ => false
  /-- The optional exponent `(e[-+]?\d+)?` at the end of the literal. -/
  isExpTail : List Char → Bool
    | [] => true
    | 'e' :: rest =>
        let rest2 := if rest.head? = some '-' || rest.head? = some '+' then rest.drop 1 else rest
        !rest2.isEmpty && rest2.all isDigitChar
    | _ => false
  /-- The mantissa alternatives `\d+(\.\d*)?` and `\.\d+`, plus exponent. -/
  isMantissa : List Char → Bool
    | cs =>
        match cs with
        | '.' :: rest =>
            let digits := rest.takeWhile isDigitChar
            !digits.isEmpty && isExpTail (rest.drop digits.length)
        | _ =>
            let intPart := cs.takeWhile isDigitChar
            if intPart.isEmpty then false
            else
              match cs.drop intPart.length with
              | '.' :: rest =>
                  let frac := rest.takeWhile isDigitChar
                  isExpTail (rest.drop frac.length)
              | rest => isExpTail rest
  /-- `/^[-+]?(?:\d+(?:\.\d*)?|\.\d+)(e[-+]?\d+)?$/`. -/
  isDecLit : List Char → Bool
    | '-' :: rest => isMantissa rest
    | '+' :: rest => isMantissa rest
    | cs => isMantissa cs

/-- JS `Number(s)` for strings accepted by `isNumberStr` (the only strings
minimist converts); other strings are mapped to `0`, a case no modelled run
reaches. -/
def jsStringToNum (s : String) : ℚ :=
  match strChars s with
  | '0' :: 'x' :: rest => Rat.divInt (Int.ofNat (hexDigitsVal rest)) 1
  | '0' :: 'X' :: rest => Rat.divInt (Int.ofNat (hexDigitsVal rest)) 1
  | '-' :: rest => Rat.divInt (-1) 1 * decLitVal rest
  | '+' :: rest => decLitVal rest
  | cs => decLitVal cs
where
  /-- Value of an unsigned decimal literal `\d*(\.\d*)?(e[-+]?\d+)?`. -/
  decLitVal (cs : List Char) : ℚ :=
    let intPart := cs.takeWhile isDigitChar
    let afterInt := cs.drop intPart.length
    let frac :=
      match afterInt with
      | '.' :: rest => rest.takeWhile isDigitChar
      | _ => []
    let afterFrac :=
      match afterInt with
      | '.' :: rest => rest.drop frac.length
      | rest => rest
    let mantissa : Int := Int.ofNat (decDigitsVal (intPart ++ frac))
    let expVal : Int :=
      match afterFrac with
      | 'e' :: rest =>
          (match rest with
           | '-' :: ds => -(Int.ofNat (decDigitsVal ds))
           | '+' :: ds => Int.ofNat (decDigitsVal ds)
           | ds => Int.ofNat (decDigitsVal ds))
      | _ => 0
    let e : Int := expVal - Int.ofNat frac.length
    match e with
    | .ofNat n => Rat.divInt (mantissa * pow10 n) 1
    | .negSucc n => Rat.divInt mantissa (pow10 (n + 1))

/-- `/^--.+=/` together with the capture `/^--([^=]+)=([\s\S]*)$/`: after the
leading `--`, a nonempty run of non-`=` characters, an `=`, and the rest.
(The pathological `--=...` form, on which the source's capture would fail
after its test succeeded, is outside the model; no modelled argv contains
it.) -/
def splitLongEq (arg : String) : Option (String × String) :=
  match strChars arg with
  | '-' :: '-' :: rest =>
      let key := rest.takeWhile (· ≠ '=')
      if key.isEmpty then none
      else
        match rest.drop key.length with
        | '=' :: value => some (strOfChars key, strOfChars value)
        | _ => none
  | _ => none

/-- `/^--no-.+/`. -/
def testLongNo (arg : String) : Bool :=
  match strChars arg with
  | '-' :: '-' :: 'n' :: 'o' :: '-' :: rest => !rest.isEmpty
  | _ => false

/-- `/^--.+/`. -/
def testLong (arg : String) : Bool :=
  match strChars arg with
  | '-' :: '-' :: rest => !rest.isEmpty
  | _ => false

/-- `/^(-|--)[^-]/`: a dash or double dash followed by a non-dash. -/
def testDashNonDash (s : String) : Bool :=
  match strChars s with
  | '-' :: '-' :: c :: _ => c ≠ '-'
  | '-' :: c :: _ => c ≠ '-'
  | _ => false

/-- `/^-[^-]+/`: a single dash followed by at least one non-dash. -/
def testShort (arg : String) : Bool :=
  match strChars arg with
  | '-' :: c :: _ => c ≠ '-'
  | _ => false

/-- The slash-delimited source regex `-?\d+(\.\d*)?(e-?\d+)?$` — anchored
only at the end, so it holds iff some suffix matches the whole pattern. -/
def testNumTail (s : String) : Bool :=
  (List.range (strChars s).length).any fun i => numTailAnchored ((strChars s).drop i)
where
  /-- Full-string match of `-?\d+(\.\d*)?(e-?\d+)?`. -/
  numTailAnchored (cs : List Char) : Bool :=
    let cs1 := if cs.head? = some '-' then cs.drop 1 else cs
    let digits := cs1.takeWhile isDigitChar
    if digits.isEmpty then false
    else
      let rest := cs1.drop digits.length
      let rest2 :=
        match rest with
        | '.' :: r => r.drop (r.takeWhile isDigitChar).length
        | r => r
      match rest2 with
      | [] => true
      | 'e' :: r =>
          let r2 := if r.head? = some '-' then r.drop 1 else r
          !r2.isEmpty && r2.all isDigitChar
      | _ => false

/-- minimist's flag configuration after registration: declared booleans,
declared strings (already extended to aliases), and the symmetric alias
map. -/
structure MinimistFlags where
  bools : List String
  strings : List String
  aliases : List (String × List String)
deriving Repr

/-- The result object `argv` of a minimist parse: named entries, the `_`
positional array, and the `--` tail (the source is called with the
`"--": true` option, which stores post-`--` arguments separately). -/
structure MinimistResult where
  params : JObj
  underscore : List JVal
  ddash : List String
deriving Repr

/-- minimist's `setKey` on a single-segment key (no registered TMCP long name
contains a dot): assign when absent, boolean-declared, or currently boolean;
push onto an existing array; otherwise wrap old and new into an array. -/
def msetKey (bools : List String) (o : JObj) (key : String) (v : JVal) : JObj :=
  match JObj.jget o key with
  | none => JObj.jset o key v
  | some old =>
      if bools.contains key then JObj.jset o key v
      else
        match old with
        | .vbool _ => JObj.jset o key v
        | .varr xs => JObj.jset o key (.varr (JArr.append xs (.acons v .anil)))
        | _ => JObj.jset o key (.varr (.acons old (.acons v .anil)))

/-- minimist's `setArg`: convert a numeric-looking string unless the key is
string-declared, then set the key and all of its aliases. -/
def msetArg (fl : MinimistFlags) (o : JObj) (key : String) (v : JVal) : JObj :=
  let value :=
    match v with
    | .vstr s =>
        if !fl.strings.contains key && isNumberStr s then JVal.vnum (jsStringToNum s) else v
    | _ => v
  let o1 := msetKey fl.bools o key value
  (aliasesOf fl key).foldl (fun acc x => msetKey fl.bools acc x value) o1
where
  /-- `aliases[key] || []`. -/
  aliasesOf (fl : MinimistFlags) (key : String) : List String :=
    match fl.aliases.lookup key with
    | some xs => xs
    | none => []

/-- minimist's `aliasIsBoolean(key)`. -/
def aliasIsBoolean (fl : MinimistFlags) (key : String) : Bool :=
  (msetArg.aliasesOf fl key).any fun x => fl.bools.contains x

/-- The short-option inner loop of minimist (`letters` walk over `-abc`-style
arguments), returning the updated result object and the `broken` flag. -/
def mshortLetters (fl : MinimistFlags) (argChars : List Char) :
    JObj → List Char → Nat → JObj × Bool
  | o, [], _ => (o, false)
  | o, letter :: restLetters, j =>
      let next := strOfChars (argChars.drop (j + 2))
      if next = "-" then
        mshortLetters fl argChars (msetArg fl o (strOfChars [letter]) (.vstr next)) restLetters (j + 1)
      else if isAsciiLetterChar letter && (strChars next).head? = some '=' then
        (msetArg fl o (strOfChars [letter]) (.vstr (strOfChars ((strChars next).drop 1))), true)
      else if isAsciiLetterChar letter && testNumTail next then
        (msetArg fl o (strOfChars [letter]) (.vstr next), true)
      else if
          match restLetters.head? with
          | some nextLetter => !isWordChar nextLetter
          | none => false then
        (msetArg fl o (strOfChars [letter]) (.vstr (strOfChars (argChars.drop (j + 2)))), true)
      else
        mshortLetters fl argChars
          (msetArg fl o (strOfChars [letter])
            (if fl.strings.contains (strOfChars [letter]) then .vstr "" else .vbool true))
          restLetters (j + 1)

/-- One step of minimist's main argument loop, returning the updated result
object, positionals, and whether the lookahead argument was consumed (the
source's `i += 1`). -/
def mparseStep (fl : MinimistFlags) (o : JObj) (und : List JVal)
    (arg : String) (rest : List String) : JObj × List JVal × Bool :=
  match splitLongEq arg with
  | some (key, value) =>
      let v : JVal :=
        if fl.bools.contains key then .vbool (value ≠ "false") else .vstr value
      (msetArg fl o key v, und, false)
  | none =>
    if testLongNo arg then
      let key := strOfChars ((strChars arg).drop 5)
      (msetArg fl o key (.vbool false), und, false)
    else if testLong arg then
      let key := strOfChars ((strChars arg).drop 2)
      match rest with
      | next :: _ =>
          if !testDashNonDash next && !fl.bools.contains key &&
              (match fl.aliases.lookup key with
               | some _ => !aliasIsBoolean fl key
               | none => true) then
            (msetArg fl o key (.vstr next), und, true)
          else if next = "true" || next = "false" then
            (msetArg fl o key (.vbool (next = "true")), und, true)
          else
            (msetArg fl o key (if fl.strings.contains key then .vstr "" else .vbool true), und, false)
      | [] =>
          (msetArg fl o key (if fl.strings.contains key then .vstr "" else .vbool true), und, false)
    else if testShort arg then
      let argChars := strChars arg
      let letters := (argChars.drop 1).dropLast
      let r1 := mshortLetters fl argChars o letters 0
      let key := strOfChars ((argChars.drop (argChars.length - 1)).take 1)
      if !r1.2 && key ≠ "-" then
        match rest with
        | next :: _ =>
            if !testDashNonDash next && !fl.bools.contains key &&
                (match fl.aliases.lookup key with
                 | some _ => !aliasIsBoolean fl key
                 | none => true) then
              (msetArg fl r1.1 key (.vstr next), und, true)
            else if next = "true" || next = "false" then
              (msetArg fl r1.1 key (.vbool (next = "true")), und, true)
            else
              (msetArg fl r1.1 key (if fl.strings.contains key then .vstr "" else .vbool true), und, false)
        | [] =>
            (msetArg fl r1.1 key (if fl.strings.contains key then .vstr "" else .vbool true), und, false)
      else (r1.1, und, false)
    else
      let v : JVal := if isNumberStr arg then .vnum (jsStringToNum arg) else .vstr arg
      (o, und ++ [v], false)

/-- minimist's main loop over the argument vector.  `fuel` only bounds the
recursion structurally so the definition kernel-reduces; every step consumes
at least one argument, so any `fuel ≥ args.length` (as supplied by
`minimistParse`) is exact and the fuel-exhaustion base case is never
reached. -/
def mparseLoop (fl : MinimistFlags) : Nat → JObj → List JVal → List String → JObj × List JVal
  | 0, o, und, _ => (o, und)
  | _, o, und, [] => (o, und)
  | fuel + 1, o, und, arg :: rest =>
      let r := mparseStep fl o und arg rest
      mparseLoop fl fuel r.1 r.2.1 (if r.2.2 then rest.drop 1 else rest)

/-- A full minimist parse as configured by `parseCLIOnce`: declared booleans
are pre-initialised to `false` (the source's "set booleans to false by
default" pass over `flags.bools`, with no `opts.default` supplied), the
arguments before any bare `--` are parsed, and the arguments after it are
stored under the `--` key. -/
def minimistParse (fl : MinimistFlags) (args : List String) : MinimistResult :=
  let o0 := fl.bools.foldl (fun acc key => msetArg fl acc key (.vbool false)) .onil
  let mainArgs := if args.contains "--" then args.takeWhile (· ≠ "--") else args
  let tail := if args.contains "--" then (args.dropWhile (· ≠ "--")).drop 1 else []
  let (o, und) := mparseLoop fl mainArgs.length o0 [] mainArgs
  { params := o, underscore := und, ddash := tail }

/- ------------------------------------------------------------------------ -/
/- lib/pipeline-config.js : parameter registry and CLI resolution            -/
/- ------------------------------------------------------------------------ -/

/-- JS whitespace characters relevant to `String.prototype.trim` on the keys
the registry uses. -/
def isJsSpaceChar (c : Char) : Bool :=
  c = ' ' || c = '\t' || c = '\n' || c = '\r'

/-- ASCII lower-casing (`String.prototype.toLowerCase` on the ASCII keys the
registry uses). -/
def charToLower (c : Char) : Char :=
  if 65 ≤ c.toNat && c.toNat ≤ 90 then Char.ofNat (c.toNat + 32) else c

/-- `normalizeKey(s)` from `lib/pipeline-config.js`: trim then lower-case. -/
def normalizeKey (s : String) : String :=
  strOfChars
    ((((strChars s).dropWhile isJsSpaceChar).reverse.dropWhile isJsSpaceChar).reverse.map
      charToLower)

/-- A parameter registration as normalized by `registerParam`:
`generateNegative` is the registered value when supplied, else
`!expectsValue`; `defaultVal := none` models a spec without a `default`
property (the normalized record stores `undefined` there, which behaves
identically in resolution). -/
structure ParamSpec where
  longname : String
  shortname : Option String := none
  envname : Option String := none
  defaultVal : Option JVal := none
  expectsValue : Bool := false
  generateNegative : Bool := true
  required : Bool := false
  mutableFlag : Bool := true
deriving Repr, DecidableEq

/-- Replace-or-append on the alias map (JS dictionary assignment). -/
def alSet (m : List (String × List String)) (k : String) (v : List String) :
    List (String × List String) :=
  match m with
  | [] => [(k, v)]
  | (k', v') :: rest => if k' = k then (k, v) :: rest else (k', v') :: alSet rest k v

/-- minimist's alias-map construction for single-target aliases (every TMCP
alias entry maps one long name to one short name): each pair is recorded in
both directions. -/
def buildAliases (pairs : List (String × String)) : List (String × List String) :=
  pairs.foldl (fun acc kv => alSet (alSet acc kv.1 [kv.2]) kv.2 [kv.1]) []

/-- The minimist configuration `parseCLIOnce` builds from the registry:
`boolean` starts at `["help"]` and gains each non-value-expecting long name
(plus its `no-` form when the negative is generated); `string` gains each
value-expecting long name (extended to its aliases); `alias` maps `help` to
`h` plus each registered short name. -/
def minimistFlagsOf (registry : List ParamSpec) : MinimistFlags :=
  let bools :=
    "help" ::
      registry.foldr
        (fun p acc =>
          if p.expectsValue then acc
          else p.longname :: (if p.generateNegative then ("no-" ++ p.longname) :: acc else acc))
        []
  let aliases :=
    buildAliases
      (("help", "h") :: registry.filterMap fun p => p.shortname.map fun s => (p.longname, s))
  let strings0 := (registry.filter (·.expectsValue)).map (·.longname)
  let strings :=
    strings0.foldl
      (fun acc s =>
        acc ++ (match aliases.lookup s with | some xs => xs | none => []))
      strings0
  { bools := bools, strings := strings, aliases := aliases }

/-- Steps 3.1–3.6 of `parseCLIOnce` for one registered parameter: CLI long
form (minimist already merged aliases), CLI negative form, strict
value-expectation check, environment variable, registered default, required
check.  Returns the resolved value and whether a usage error was flagged. -/
def resolveParamValue (parsedParams : JObj) (env : List (String × String))
    (p : ParamSpec) : JVal × Bool :=
  let step1 := JObj.jget parsedParams p.longname
  let value1 := match step1 with | some v => v | none => JVal.vundef
  let hasCli1 := step1.isSome
  let negHit :=
    !p.expectsValue && p.generateNegative &&
      JObj.jget parsedParams ("no-" ++ p.longname) == some (.vbool true)
  let value2 := if negHit then JVal.vbool false else value1
  let hasCli2 := hasCli1 || negHit
  let err3 := hasCli2 && p.expectsValue && (value2 == JVal.vbool true || value2 == JVal.vundef)
  let value4 :=
    if !hasCli2 then
      match p.envname with
      | some n =>
          (match env.lookup n with
           | some s => JVal.vstr s
           | none => value2)
      | none => value2
    else value2
  let value5 :=
    if value4 == JVal.vundef then
      match p.defaultVal with
      | some d => d
      | none => JVal.vundef
    else value4
  let err6 := p.required && value5 == JVal.vundef
  (value5, err3 || err6)

/-- A positional-schema slot as normalized by `registerPositionals`. -/
structure PosSpec where
  name : String
  required : Bool := false
  varargs : Bool := false
deriving Repr, DecidableEq

/-- `applyPositionalsSchema(positionalsArr)` from `lib/pipeline-config.js`:
walk the slots in order, a varargs slot absorbing the remaining positionals
and ending the walk; flag an error only for a required slot with no value.
Returns the named-positional map and whether an error was flagged. -/
def applyPositionalsSchema (schema : List PosSpec) (positionals : List JVal) :
    List (String × JVal) × Bool :=
  match schema with
  | [] => ([], false)
  | spec :: restSchema =>
      if spec.varargs then
        ([(spec.name, .varr (JArr.ofList positionals))], spec.required && positionals.isEmpty)
      else
        let v := match positionals.head? with | some x => x | none => JVal.vundef
        let err := spec.required && positionals.isEmpty
        let r := applyPositionalsSchema restSchema (positionals.drop 1)
        ((spec.name, v) :: r.1, err || r.2)

/-- The outcome of `parseCLIOnce` / `loadCLI`: resolved parameter values, raw
and named positionals, and the status flags.  `loadCLI` prints usage and
exits with a non-zero code exactly when `isError` is set (and with code `0`
when only `showHelp` is set). -/
structure CliResolution where
  params : List (String × JVal)
  positionals : List JVal
  named : List (String × JVal)
  isError : Bool
  showHelp : Bool
deriving Repr

/-- `parseCLIOnce` from `lib/pipeline-config.js`: build the minimist
configuration from the registry, parse argv, resolve every registered
parameter, apply the positional schema, and check the help flag. -/
def parseCLIOnce (registry : List ParamSpec) (schema : List PosSpec)
    (argv : List String) (env : List (String × String)) : CliResolution :=
  let fl := minimistFlagsOf registry
  let parsed := minimistParse fl argv
  let resolved := registry.map fun p => (normalizeKey p.longname, resolveParamValue parsed.params env p)
  let anyErr := resolved.any fun kv => kv.2.2
  let posResult := applyPositionalsSchema schema parsed.underscore
  let help :=
    match JObj.jget parsed.params "help" with
    | some v => v.truthy
    | none => false
  { params := resolved.map fun kv => (kv.1, kv.2.1),
    positionals := parsed.underscore,
    named := posResult.1,
    isError := anyErr || posResult.2,
    showHelp := anyErr || posResult.2 || help }

/-- `cli.get("param.<name>")` on the resolution result (no runtime override
in play): the stored value, or `undefined` when the name was never
registered. -/
def cliGetParam (res : CliResolution) (name : String) : JVal :=
  match res.params.lookup (normalizeKey name) with
  | some v => v
  | none => JVal.vundef

/-- The substrate parameters every module registers on import, in evaluation
order: `lib/pipeline-logging.js` (`verbose-log-level`, `verbose`,
`verbose-input`, `verbose-output`), `lib/pipeline-core.js` (`do-tag`), and
`lib/pipeline-stream.js` (`in-protocol`, `out-protocol`, `exit-on-close`,
`retry`, `exit-instead-of-kill`).  Field values mirror each `registerParam`
call; `generateNegative` is `!expectsValue` where not supplied. -/
def coreRegistry : List ParamSpec :=
  [ { longname := "verbose-log-level", envname := some "TMCP_VERBOSE_LOG_LEVEL",
      defaultVal := some (.vstr "warn"), expectsValue := false, generateNegative := true },
    { longname := "verbose", envname := some "TMCP_VERBOSE",
      defaultVal := some (.vbool false), expectsValue := false, generateNegative := true },
    { longname := "verbose-input", envname := some "TMCP_VERBOSE_INPUT",
      defaultVal := some (.vbool false), expectsValue := false, generateNegative := true },
    { longname := "verbose-output", envname := some "TMCP_VERBOSE_OUTPUT",
      defaultVal := some (.vbool false), expectsValue := false, generateNegative := true },
    { longname := "do-tag", envname := some "TMCP_DO_TAG",
      defaultVal := some (.vbool true), expectsValue := false, generateNegative := true },
    { longname := "in-protocol", envname := some "TMCP_IN_PROTOCOL",
      defaultVal := some (.vstr "ndjson"), expectsValue := true, generateNegative := false },
    { longname := "out-protocol", envname := some "TMCP_OUT_PROTOCOL",
      defaultVal := some (.vstr "ndjson"), expectsValue := true, generateNegative := false },
    { longname := "exit-on-close", envname := some "TMCP_EXIT_ON_CLOSE",
      defaultVal := some (.vstr ""), expectsValue := true, generateNegative := false },
    { longname := "retry", envname := some "TMCP_RETRY",
      defaultVal := some (.vstr ""), expectsValue := true, generateNegative := false },
    { longname := "exit-instead-of-kill", envname := some "TMCP_EXIT_INSTEAD_OF_KILL",
      defaultVal := some (.vbool false), expectsValue := false, generateNegative := true } ]

/-- The registry in effect when `tmcp-control-minrate.js` calls `loadCLI()`:
the substrate parameters followed by the module's own `interval-ms` and
`rate` registrations. -/
def minrateRegistry : List ParamSpec :=
  coreRegistry ++
    [ { longname := "interval-ms", envname := some "TMCP_INTERVAL_MS",
        defaultVal := none, expectsValue := true, generateNegative := false },
      { longname := "rate", envname := some "TMCP_RATE",
        defaultVal := none, expectsValue := true, generateNegative := false } ]

/-- `tagEnabled()` from `lib/pipeline-core.js`:
`cli.get("param.do-tag") === true`. -/
def tagEnabledOf (res : CliResolution) : Bool :=
  cliGetParam res "do-tag" == JVal.vbool true

/- ------------------------------------------------------------------------ -/
/- tmcp-control-minrate.js                                                   -/
/- ------------------------------------------------------------------------ -/

/-- JS `+` on the operand shapes `lastLogicalTs += intervalMs` can see
(numbers and strings): number-number adds, any string operand concatenates
after number-to-string conversion.  Other operand shapes never occur on the
modelled paths. -/
def jsPlus (a b : JVal) : JVal :=
  match a, b with
  | .vnum x, .vnum y => .vnum (qadd x y)
  | .vnum x, .vstr s => .vstr (strOfChars (strChars (jsNumToString x) ++ strChars s))
  | .vstr s, .vnum y => .vstr (strOfChars (strChars s ++ strChars (jsNumToString y)))
  | .vstr s, .vstr t => .vstr (strOfChars (strChars s ++ strChars t))
  | _, _ => (.vundef)

/-- JS numeric coercion for the division `1000 / rateFromOverride` (the
operand is a number or a numeric-literal string on every modelled path). -/
def jsToNumber : JVal → ℚ
  | .vnum x => x
  | .vstr s => jsStringToNum s
  | _ => 0

/-- The `intervalMs` value `tmcp-control-minrate.js` computes at startup:
`cli.get("param.interval-ms")` verbatim when that is neither `undefined` nor
`null`, else `1000 / rate`.  `none` models the two `process.exit(1)` paths
(both given, or neither given). -/
def minrateIntervalMs (cli : CliResolution) : Option JVal :=
  let iv := cliGetParam cli "interval-ms"
  let rv := cliGetParam cli "rate"
  let hasIv := iv != JVal.vundef && iv != JVal.vnull
  let hasRv := rv != JVal.vundef && rv != JVal.vnull
  if hasIv && hasRv then none
  else if hasIv then some iv
  else if hasRv then some (.vnum (qdiv 1000 (jsToNumber rv)))
  else none

/-- The module state of `tmcp-control-minrate.js`: the last fully emitted
message, the logical timestamp (`null` at startup, then whatever value the
`+=` produces), and the wall-clock time of the last emission. -/
structure MinrateState where
  lastMessage : Option JVal
  lastLogicalTs : JVal
  lastEmitWall : ℚ
deriving Repr

/-- `emitClone()` from `tmcp-control-minrate.js`: advance the logical
timestamp by `intervalMs` via JS `+=` (resetting it to `Date.now()` first
when it is not a finite number), rebuild the meta from the cached message
with the advanced timestamp and a copied (or freshly tagged) pipeline, and
emit through `safeWrite`.  Returns the emitted record, if any, and the new
state. -/
def emitClone (intervalMs : JVal) (now : ℚ) (st : MinrateState) :
    Option JVal × MinrateState :=
  match st.lastMessage with
  | none => (none, st)
  | some lastMsg =>
      let ts0 := if st.lastLogicalTs.isFiniteNum then st.lastLogicalTs else .vnum now
      let newTs := jsPlus ts0 intervalMs
      let srcMeta :=
        match lastMsg.pget "meta" with
        | some m => if m.truthy then m else JVal.vobj .onil
        | none => JVal.vobj .onil
      let srcFields := match srcMeta with | .vobj f => f | _ => JObj.onil
      let pl : JVal :=
        match srcMeta.pget "pipeline" with
        | some (.varr xs) => .varr xs
        | _ => .varr (.acons (.vstr "minr") .anil)
      let meta := JObj.jset (JObj.jset srcFields "pipeline" pl) "timestamp" newTs
      let data :=
        match lastMsg.pget "data" with
        | some d => if d == JVal.vundef || d == JVal.vnull then JVal.vobj .onil else d
        | none => JVal.vobj .onil
      let cloned := JVal.vobj (.ofList [("meta", .vobj meta), ("data", data)])
      (some (safeWriteCanonical cloned),
       { lastMessage := st.lastMessage, lastLogicalTs := newTs, lastEmitWall := now })

/-- The `safeRead` handler of `tmcp-control-minrate.js`: forward the record
with its (or the current) timestamp, append the `minr` tag, emit, and cache
the emitted message as the clone source.  `safeWrite` normalizes the object
in place, so the cached message is the normalized emission. -/
def minrateOnRecord (tagOn : Bool) (now : ℚ) (_st : MinrateState) (obj : JVal) :
    Option JVal × MinrateState :=
  let metaIn :=
    match obj.pget "meta" with
    | some m => if m.truthy then m else JVal.vobj .onil
    | none => JVal.vobj .onil
  let dataIn :=
    match obj.pget "data" with
    | some d => if d.truthy then d else JVal.vobj .onil
    | none => JVal.vobj .onil
  let ts : ℚ :=
    match metaIn.pget "timestamp" with
    | some (.vnum q) => q
    | _ => now
  let metaFields := match metaIn with | .vobj f => f | _ => JObj.onil
  let outMeta := appendTag tagOn (.vobj (JObj.jset metaFields "timestamp" (.vnum ts))) "minr"
  let out := safeWriteCanonical (JVal.vobj (.ofList [("meta", outMeta), ("data", dataIn)]))
  (some out, { lastMessage := some out, lastLogicalTs := .vnum ts, lastEmitWall := now })

/- ------------------------------------------------------------------------ -/
/- tmcp-control-merge-streams.js                                             -/
/- ------------------------------------------------------------------------ -/

/-- `obj.meta?.timestamp` — the raw timestamp value, `vundef` when `meta` or
the property is absent (or `meta` is not an object). -/
def metaTsRaw (o : JVal) : JVal :=
  match o.pget "meta" with
  | some m => (m.pget "timestamp").getD .vundef
  | none => (.vundef)

/-- `obj.meta?.timestamp ?? 0` (`??` replaces only `null`/`undefined`). -/
def tsCoalesce0 (o : JVal) : JVal :=
  match metaTsRaw o with
  | .vundef => .vnum 0
  | .vnull => .vnum 0
  | v => v

/-- JS `x < y` for a number `y` and the shapes `x` takes after `?? 0` in the
buffer-eviction conditions: numbers compare numerically; strings convert via
`Number` (the empty/whitespace string is `0`, a numeric literal is its value,
anything else is `NaN` and compares false).  Booleans and objects never reach
these comparisons on the modelled paths. -/
def jsLtQ (a : JVal) (b : ℚ) : Bool :=
  match a with
  | .vnum x => decide (x < b)
  | .vstr s =>
      let t := strOfChars (((strChars s).dropWhile isJsSpaceChar).reverse.dropWhile isJsSpaceChar).reverse
      if t = "" then decide ((0 : ℚ) < b)
      else isNumberStr t && decide (jsStringToNum t < b)
  | _ => false

/-- The numeric timestamp of a buffered side/main record
(`rec.meta?.timestamp ?? 0` read as a number).  The bounded-mode side buffer
admits only records with `typeof timestamp === "number"`, which is the shape
every theorem below hypothesises; `0` stands in for the other shapes. -/
def tsNumOf (o : JVal) : ℚ :=
  match tsCoalesce0 o with
  | .vnum x => x
  | _ => 0

/-- The in-memory state of `tmcp-control-merge-streams.js`. -/
structure MergeState where
  mainBuffer : List JVal
  sideBuffers : List (List JVal)
  sideLastUnbounded : List (Option JVal)
deriving Repr

/-- `pushMain(obj)` from `tmcp-control-merge-streams.js`: append the record,
then shift records off the front while the front timestamp (`?? 0`) is older
than `Date.now() - MAX_BUFFER_MS`. -/
def pushMain (now maxBufferMs : ℚ) (buf : List JVal) (obj : JVal) : List JVal :=
  (buf ++ [obj]).dropWhile fun o => jsLtQ (tsCoalesce0 o) (qsub now maxBufferMs)

/-- `pushSide(idx, obj)`: unbounded channels always record the latest
numerically-timestamped record (plus a diagnostic history); bounded channels
append records with numeric timestamps and evict the stale front. -/
def pushSide (now maxBufferMs : ℚ) (allowUnbounded : List Bool) (st : MergeState)
    (idx : Nat) (obj : JVal) : MergeState :=
  let isNumberTs := (metaTsRaw obj).isNum
  if allowUnbounded.getD idx false then
    let newLast :=
      if isNumberTs then st.sideLastUnbounded.set idx (some obj) else st.sideLastUnbounded
    { st with
      sideLastUnbounded := newLast,
      sideBuffers := st.sideBuffers.set idx (st.sideBuffers.getD idx [] ++ [obj]) }
  else
    if isNumberTs then
      let buf := st.sideBuffers.getD idx [] ++ [obj]
      let evicted := buf.dropWhile fun o => jsLtQ (tsCoalesce0 o) (qsub now maxBufferMs)
      { st with sideBuffers := st.sideBuffers.set idx evicted }
    else st

/-- `Math.abs(ts - (rec.meta?.timestamp ?? 0))`, the distance a side record's
timestamp has from the target. -/
def sideDiff (ts : ℚ) (rec : JVal) : ℚ := qabs (qsub ts (tsNumOf rec))

/-- `findClosest(buf, ts)`: scan for the record minimising `sideDiff` (the
first record wins ties, since only strictly smaller differences replace the
champion); return `null` when the minimum exceeds `MATCH_TOLERANCE_MS`. -/
def findClosest (tol : ℚ) (buf : List JVal) (ts : ℚ) : Option JVal :=
  match buf with
  | [] => none
  | first :: _ =>
      let best :=
        buf.foldl
          (fun acc rec => if sideDiff ts rec < acc.2 then (rec, sideDiff ts rec) else acc)
          (first, sideDiff ts first)
      if best.2 > tol then none else some best.1

/-- The per-key update of the interpolation loop: for each entry of
`before.data`, interpolate when both endpoint values are numbers, else keep
the `before` value. -/
def interpFields (ratio : ℚ) (after : JVal) : JObj → JObj
  | .onil => .onil
  | .ocons k v1 rest =>
      let v2 :=
        match after.pget "data" with
        | some (.vobj af) => (JObj.jget af k).getD .vundef
        | _ => JVal.vundef
      let newV :=
        match v1, v2 with
        | .vnum x1, .vnum x2 => JVal.vnum (qadd x1 (qmul (qsub x2 x1) ratio))
        | _, _ => v1
      .ocons k newV (interpFields ratio after rest)

/-- `interpolateBounded(buf, ts)`: use the closest record when it is within
tolerance; otherwise interpolate between the last record at or before `ts`
and the first after it (falling back to whichever exists).  The synthesized
record is the `before` clone with numeric keys interpolated and
`meta.timestamp` set to `ts`. -/
def interpolateBounded (tol : ℚ) (buf : List JVal) (ts : ℚ) : Option JVal :=
  match findClosest tol buf ts with
  | some nearest => some nearest
  | none =>
      let before := (buf.filter fun o => tsNumOf o ≤ ts).getLast?
      let after := buf.find? fun o => ts < tsNumOf o
      match before, after with
      | some b, some a =>
          let t1 := tsNumOf b
          let t2 := tsNumOf a
          if t2 ≤ t1 then some b
          else
            let ratio := qdiv (qsub ts t1) (qsub t2 t1)
            let outFields0 := match b with | .vobj f => f | _ => JObj.onil
            let outFields1 :=
              match b.pget "data" with
              | some (.vobj bf) => JObj.jset outFields0 "data" (.vobj (interpFields ratio a bf))
              | _ => outFields0
            let outFields2 :=
              match JObj.jget outFields1 "meta" with
              | some (.vobj mf) =>
                  JObj.jset outFields1 "meta" (.vobj (JObj.jset mf "timestamp" (.vnum ts)))
              | _ => outFields1
            some (.vobj outFields2)
      | some b, none => some b
      | none, some a => some a
      | none, none => none

/-- `interpolateSide(idx, ts)`: unbounded channels return the held last
record only; bounded channels interpolate over their window. -/
def interpolateSide (tol : ℚ) (allowUnbounded : List Bool) (st : MergeState)
    (idx : Nat) (ts : ℚ) : Option JVal :=
  if allowUnbounded.getD idx false then
    st.sideLastUnbounded.getD idx none
  else
    interpolateBounded tol (st.sideBuffers.getD idx []) ts

/-- Copy the selected side record's fields into the merged data under
`key + postfix` (the emission loop's inner `for`). -/
def addPostfixed (acc : JObj) (pfx : String) : JObj → JObj
  | .onil => acc
  | .ocons k v rest => addPostfixed (JObj.jset acc (k ++ pfx) v) pfx rest

/-- `emitPassthrough(mainObj)`: shallow-copied meta and data, tag appended,
written to stdout. -/
def emitPassthrough (tagOn : Bool) (mainObj : JVal) : JVal :=
  let metaFields :=
    match mainObj.pget "meta" with
    | some m => if m.truthy then (match m with | .vobj f => f | _ => JObj.onil) else JObj.onil
    | none => JObj.onil
  let dataFields :=
    match mainObj.pget "data" with
    | some d => if d.truthy then (match d with | .vobj f => f | _ => JObj.onil) else JObj.onil
    | none => JObj.onil
  safeWriteCanonical
    (.vobj (.ofList
      [("meta", appendTag tagOn (.vobj metaFields) "mrg"), ("data", .vobj dataFields)]))

/-- `tryEmit()` from `tmcp-control-merge-streams.js`: nothing on an empty
main buffer; a passthrough when the newest main record's timestamp is not a
number; otherwise the merged record assembled from every side channel's
selected record, with tag appended and `meta.timestamp` pinned to the main
timestamp. -/
def tryEmit (tagOn : Bool) (tol : ℚ) (pfxs : List String) (allowUnbounded : List Bool)
    (st : MergeState) : Option JVal :=
  match st.mainBuffer.getLast? with
  | none => none
  | some mainObj =>
      match metaTsRaw mainObj with
      | .vnum ts =>
          let metaFields :=
            match mainObj.pget "meta" with
            | some m => if m.truthy then (match m with | .vobj f => f | _ => JObj.onil) else JObj.onil
            | none => JObj.onil
          let mergedMeta := JObj.jset metaFields "timestamp" (.vnum ts)
          let dataFields :=
            match mainObj.pget "data" with
            | some d => if d.truthy then (match d with | .vobj f => f | _ => JObj.onil) else JObj.onil
            | none => JObj.onil
          let mergedData :=
            (List.range st.sideBuffers.length).foldl
              (fun acc i =>
                match interpolateSide tol allowUnbounded st i ts with
                | none => acc
                | some rec =>
                    match rec.pget "data" with
                    | some d =>
                        if d.truthy then
                          (match d with
                           | .vobj rf => addPostfixed acc (pfxs.getD i ("_" ++ natToString (i + 1))) rf
                           | _ => acc)
                        else acc
                    | none => acc)
              dataFields
          some (safeWriteCanonical
            (.vobj (.ofList
              [("meta", appendTag tagOn (.vobj mergedMeta) "mrg"),
               ("data", .vobj mergedData)])))
      | _ => some (emitPassthrough tagOn mainObj)

/-- The stdin handler of `tmcp-control-merge-streams.js`:
`pushMain(obj); tryEmit();`.  Returns the new state and the emission, if
any. -/
def mergeMainStep (tagOn : Bool) (now maxBufferMs tol : ℚ) (pfxs : List String)
    (allowUnbounded : List Bool) (st : MergeState) (obj : JVal) :
    MergeState × Option JVal :=
  let st' := { st with mainBuffer := pushMain now maxBufferMs st.mainBuffer obj }
  (st', tryEmit tagOn tol pfxs allowUnbounded st')

/- ------------------------------------------------------------------------ -/
/- tmcp-control-delay.js                                                     -/
/- ------------------------------------------------------------------------ -/

/-- The state of `tmcp-control-delay.js`: the `outTs`-sorted queue of
`(outTs, record)` pairs and the input watermark (`none` models the initial
`Number.NEGATIVE_INFINITY`). -/
structure DelayState where
  queue : List (ℚ × JVal)
  watermark : Option ℚ
deriving Repr

/-- `tsIn > watermarkTs` against the possibly `-∞` watermark. -/
def wmLt (wm : Option ℚ) (x : ℚ) : Bool :=
  match wm with
  | none => true
  | some w => w < x

/-- `outTs <= watermarkTs` against the possibly `-∞` watermark. -/
def wmGe (wm : Option ℚ) (x : ℚ) : Bool :=
  match wm with
  | none => false
  | some w => x ≤ w

/-- The binary search of `insertSorted`: the upper-bound index computed by
the source's `lo`/`hi` bisection (`mid = (lo + hi) >> 1`, moving `lo` past
entries with `outTs <= item.outTs`).  `fuel` only bounds the recursion
structurally so the definition kernel-reduces; each step shrinks `hi - lo`,
so the `queue.length + 1` supplied by `insertSorted` is never exhausted. -/
def bisectUpper (q : List (ℚ × JVal)) (x : ℚ) : Nat → Nat → Nat → Nat
  | 0, lo, _ => lo
  | fuel + 1, lo, hi =>
      if lo < hi then
        let mid := (lo + hi) / 2
        if (q.getD mid (0, .vundef)).1 ≤ x then bisectUpper q x fuel (mid + 1) hi
        else bisectUpper q x fuel lo mid
      else lo

/-- `insertSorted(item)`: splice the item in at the bisected index, keeping
the queue sorted by `outTs` ascending (insertion after equal keys). -/
def insertSorted (queue : List (ℚ × JVal)) (item : ℚ × JVal) : List (ℚ × JVal) :=
  let lo := bisectUpper queue item.1 (queue.length + 1) 0 queue.length
  queue.take lo ++ item :: queue.drop lo

/-- `emitItem(item)` from `tmcp-control-delay.js`: rebuild `meta` with a
copied pipeline and `timestamp := outTs`, append the `dly` tag, and write.
Buffered records are normalized objects, so the non-object fallbacks below
are never exercised on modelled runs. -/
def emitItem (tagOn : Bool) (item : ℚ × JVal) : JVal :=
  let metaIn : JVal :=
    match item.2.pget "meta" with
    | some m => if m.truthy && m.typeofIsObject then m else .vobj .onil
    | none => .vobj .onil
  let metaFields := match metaIn with | .vobj f => f | _ => JObj.onil
  let pl := match metaIn.pget "pipeline" with | some (.varr xs) => xs | _ => JArr.anil
  let newMeta0 := JObj.jset (JObj.jset metaFields "pipeline" (.varr pl)) "timestamp" (.vnum item.1)
  let newMeta := appendTag tagOn (.vobj newMeta0) "dly"
  let outFields := match item.2 with | .vobj f => f | _ => JObj.onil
  safeWriteCanonical (.vobj (JObj.jset outFields "meta" newMeta))

/-- `flushReady()`: emit queue entries from the front while their `outTs`
has been reached by the watermark.  Returns the remaining queue and the
emissions in order. -/
def flushReady (tagOn : Bool) (wm : Option ℚ) : List (ℚ × JVal) → List (ℚ × JVal) × List JVal
  | [] => ([], [])
  | item :: rest =>
      if wmGe wm item.1 then
        let r := flushReady tagOn wm rest
        (r.1, emitItem tagOn item :: r.2)
      else (item :: rest, [])

/-- `flushAll()`: emit every remaining queue entry in order. -/
def flushAll (tagOn : Bool) (queue : List (ℚ × JVal)) : List JVal :=
  queue.map (emitItem tagOn)

/-- The stdin handler of `tmcp-control-delay.js`: derive `tsIn` (the record's
finite numeric timestamp, else `Date.now()`), advance the watermark, buffer
the clone at `tsIn + delayMs` in sorted position, and flush what the
watermark now covers. -/
def delayIngest (tagOn : Bool) (delayMs : ℚ) (now : ℚ) (st : DelayState) (obj : JVal) :
    DelayState × List JVal :=
  let tsIn :=
    match metaTsRaw obj with
    | .vnum q => q
    | _ => now
  let wm' := if wmLt st.watermark tsIn then some tsIn else st.watermark
  let q1 := insertSorted st.queue (qadd tsIn delayMs, obj)
  let r := flushReady tagOn wm' q1
  ({ queue := r.1, watermark := wm' }, r.2)

/-- A whole read phase: ingest the `(Date.now(), record)` inputs in order,
concatenating the emissions. -/
def delayRun (tagOn : Bool) (delayMs : ℚ) (st : DelayState) :
    List (ℚ × JVal) → DelayState × List JVal
  | [] => (st, [])
  | (now, obj) :: rest =>
      let r := delayIngest tagOn delayMs now st obj
      let r2 := delayRun tagOn delayMs r.1 rest
      (r2.1, r.2 ++ r2.2)

/-- The stdin `end`/`close` hook: flush the whole buffer regardless of the
watermark; `maybeExit` then finds the queue drained and exits, which the
`Bool` records. -/
def delayFinish (tagOn : Bool) (st : DelayState) : List JVal × Bool :=
  (flushAll tagOn st.queue, true)

/-- The record timestamp the delay module recognises: `meta.timestamp` when
it is a number (`Number.isFinite` admits every modelled numeric value). -/
def recTs (o : JVal) : Option ℚ :=
  match metaTsRaw o with
  | .vnum q => some q
  | _ => none

/-- `wm ≤ x` against the possibly `-∞` watermark (specification helper for
the delay-ordering theorems). -/
def wmLeB (wm : Option ℚ) (x : ℚ) : Bool :=
  match wm with
  | none => true
  | some w => decide (w ≤ x)

/- ------------------------------------------------------------------------ -/
/- tmcp-transformer-reduce.js : forwarding filter                            -/
/- ------------------------------------------------------------------------ -/

/-- Substring containment on character lists (`String.prototype.includes`). -/
def listHasInfix (pat : List Char) : List Char → Bool
  | [] => pat.isEmpty
  | c :: rest => pat.isPrefixOf (c :: rest) || listHasInfix pat rest

/-- JS `s.includes(pat)`. -/
def strIncludes (s pat : String) : Bool := listHasInfix (strChars pat) (strChars s)

/-- JS `s.startsWith(pat)` (used to state the spec's "starts with `__`"
reading of the filter). -/
def strStartsWith (s pat : String) : Bool := (strChars pat).isPrefixOf (strChars s)

/-- What claim C8 needs of a reducer rule: its declared name and `temp`
mark (mirroring the `fieldProps` table built from `reduceCfg.outputs`). -/
structure ReduceRuleInfo where
  name : String
  temp : Bool := false
deriving Repr, DecidableEq

/-- `fieldProps[key]?.temp === true` over the declared rules. -/
def reduceTempOf (rules : List ReduceRuleInfo) (key : String) : Bool :=
  match rules.find? (fun r => r.name == key) with
  | some r => r.temp
  | none => false

/-- The entry filter of the reducer's emission step: drop keys containing
`__` anywhere and keys marked `temp`. -/
def reduceEntryFilter (rules : List ReduceRuleInfo) : JObj → JObj
  | .onil => .onil
  | .ocons k v rest =>
      if strIncludes k "__" then reduceEntryFilter rules rest
      else if reduceTempOf rules k then reduceEntryFilter rules rest
      else .ocons k v (reduceEntryFilter rules rest)

/-- The `known`-policy restriction to declared output names. -/
def reduceKnownFilter (rules : List ReduceRuleInfo) : JObj → JObj
  | .onil => .onil
  | .ocons k v rest =>
      if (rules.map (·.name)).contains k then .ocons k v (reduceKnownFilter rules rest)
      else reduceKnownFilter rules rest

/-- The forwarding step of `tmcp-transformer-reduce.js` (the `safeRead`
handler's tail): filter the working map's entries, then — under
`forward_policy: "known"` — keep only declared output names; the result
becomes the emitted `data`. -/
def reduceForward (rules : List ReduceRuleInfo) (forwardPolicy : String)
    (workingData : JObj) : JObj :=
  let entries := reduceEntryFilter rules workingData
  if forwardPolicy = "known" then reduceKnownFilter rules entries else entries

/- ------------------------------------------------------------------------ -/
/- tmcp-control-dedup.js                                                     -/
/- ------------------------------------------------------------------------ -/

/-- A JS array viewed through `Object.keys` / property access: index keys in
order (used by the dedup shallow comparison when a compared value is an
array). -/
def arrAsObj (xs : JArr) : JObj := arrAsObjFrom 0 xs
where
  /-- Index-keyed view starting at index `i`. -/
  arrAsObjFrom (i : Nat) : JArr → JObj
    | .anil => .onil
    | .acons v rest => .ocons (natToString i) v (arrAsObjFrom (i + 1) rest)

/-- The own-property view of a compared value (objects as themselves, arrays
by index). -/
def jsOwnFields : JVal → JObj
  | .vobj f => f
  | .varr xs => arrAsObj xs
  | _ => .onil

/-- `computeComparisonFields(curr)` from `tmcp-control-dedup.js`:
`CHECK_FIELDS` when configured, else the current data's keys; minus
`IGNORE_FIELDS`. -/
def computeComparisonFields (checkFields : Option (List String))
    (ignoreFields : List String) (curr : JObj) : List String :=
  (match checkFields with
   | some cf => cf
   | none => curr.okeys).filter fun k => !ignoreFields.contains k

/-- JS `===` between values held in two distinct `structuredClone`s:
primitives compare by value; object/array operands compare by reference and
are therefore unequal across clones. -/
def jsStrictEq : JVal → JVal → Bool
  | .vnum a, .vnum b => a == b
  | .vstr a, .vstr b => a == b
  | .vbool a, .vbool b => a == b
  | .vnull, .vnull => true
  | .vundef, .vundef => true
  | _, _ => false

/-- `isEqualWithTolerance(a, b)`: numeric pairs within `NUM_TOL`, otherwise
strict equality. -/
def isEqualWithTolerance (tol : ℚ) (a b : JVal) : Bool :=
  match a, b with
  | .vnum x, .vnum y => qabs (qsub x y) ≤ tol
  | _, _ => jsStrictEq a b

/-- The value-level comparison of `hasMeaningfulChange`: primitive (or
mixed) values compare with tolerance; object values compare by shallow
key-count, key-presence, and tolerance-aware sub-values.  This is the
"tolerance-equal" notion of the dedup primitive. -/
def dedupValueEq (tol : ℚ) (vCurr vPrev : JVal) : Bool :=
  if !vCurr.typeofIsObject || vCurr == JVal.vnull ||
      !vPrev.typeofIsObject || vPrev == JVal.vnull then
    isEqualWithTolerance tol vCurr vPrev
  else
    let keysC := (jsOwnFields vCurr).okeys
    let keysP := (jsOwnFields vPrev).okeys
    keysC.length == keysP.length &&
      keysC.all fun sub =>
        (jsOwnFields vPrev).hasKey sub &&
          isEqualWithTolerance tol
            ((JObj.jget (jsOwnFields vCurr) sub).getD .vundef)
            ((JObj.jget (jsOwnFields vPrev) sub).getD .vundef)

/-- The per-field difference check of `hasMeaningfulChange`: a field missing
from the remembered data is a change; otherwise the field changed exactly
when the values are not `dedupValueEq` (this packages the source's
early-return loop into its boolean outcome). -/
def dedupFieldChanged (tol : ℚ) (curr lastData : JObj) (k : String) : Bool :=
  if !lastData.hasKey k then true
  else
    !dedupValueEq tol ((JObj.jget curr k).getD .vundef) ((JObj.jget lastData k).getD .vundef)

/-- `hasMeaningfulChange(curr)` from `tmcp-control-dedup.js`: always true
before anything was emitted; afterwards, true iff some comparison field is
missing from the remembered data or differs beyond tolerance. -/
def hasMeaningfulChange (tol : ℚ) (checkFields : Option (List String))
    (ignoreFields : List String) (lastState : Option JObj) (curr : JObj) : Bool :=
  match lastState with
  | none => true
  | some lastData =>
      let fields := computeComparisonFields checkFields ignoreFields curr
      (fields.any fun k => !lastData.hasKey k) ||
        (fields.any fun k => dedupFieldChanged tol curr lastData k)

/-- The `safeRead` handler of `tmcp-control-dedup.js`: drop records without
truthy `data` or without a meaningful change (leaving the remembered data
untouched); otherwise tag, emit, and remember a clone of the emitted
record's data.  Array-valued `data` is remembered through its index-keyed
view, which the comparison alone consumes. -/
def dedupStep (tagOn : Bool) (tol : ℚ) (checkFields : Option (List String))
    (ignoreFields : List String) (lastState : Option JObj) (obj : JVal) :
    Option JVal × Option JObj :=
  match obj.pget "data" with
  | none => (none, lastState)
  | some d =>
      if !d.truthy then (none, lastState)
      else
        let curr := jsOwnFields d
        if !hasMeaningfulChange tol checkFields ignoreFields lastState curr then
          (none, lastState)
        else
          let metaV := (obj.pget "meta").getD .vundef
          let newMeta := appendTag tagOn metaV "dup"
          let outFields := match obj with | .vobj f => f | _ => JObj.onil
          let out := safeWriteCanonical (.vobj (JObj.jset outFields "meta" newMeta))
          (some out, some curr)


/- ------------------------------------------------------------------------ -/
/- Supporting lemmas                                                         -/
/- ------------------------------------------------------------------------ -/

theorem qadd_eq (a b : ℚ) : qadd a b = a + b := by
  have ha : (a.den : ℚ) ≠ 0 := Nat.cast_ne_zero.mpr a.den_nz
  have hb : (b.den : ℚ) ≠ 0 := Nat.cast_ne_zero.mpr b.den_nz
  rw [qadd, Rat.divInt_eq_div]
  push_cast
  conv_rhs => rw [← Rat.num_div_den a, ← Rat.num_div_den b]
  field_simp

theorem qsub_eq (a b : ℚ) : qsub a b = a - b := by
  have ha : (a.den : ℚ) ≠ 0 := Nat.cast_ne_zero.mpr a.den_nz
  have hb : (b.den : ℚ) ≠ 0 := Nat.cast_ne_zero.mpr b.den_nz
  rw [qsub, Rat.divInt_eq_div]
  push_cast
  conv_rhs => rw [← Rat.num_div_den a, ← Rat.num_div_den b]
  field_simp
  ring

theorem qmul_eq (a b : ℚ) : qmul a b = a * b := by
  have ha : (a.den : ℚ) ≠ 0 := Nat.cast_ne_zero.mpr a.den_nz
  have hb : (b.den : ℚ) ≠ 0 := Nat.cast_ne_zero.mpr b.den_nz
  rw [qmul, Rat.divInt_eq_div]
  push_cast
  conv_rhs => rw [← Rat.num_div_den a, ← Rat.num_div_den b]
  field_simp

theorem qneg_eq (a : ℚ) : qneg a = -a := by
  have ha : (a.den : ℚ) ≠ 0 := Nat.cast_ne_zero.mpr a.den_nz
  rw [qneg, Rat.divInt_eq_div]
  push_cast
  conv_rhs => rw [← Rat.num_div_den a]
  field_simp

theorem qdiv_eq (a b : ℚ) : qdiv a b = a / b := by
  have ha : (a.den : ℚ) ≠ 0 := Nat.cast_ne_zero.mpr a.den_nz
  have hb : (b.den : ℚ) ≠ 0 := Nat.cast_ne_zero.mpr b.den_nz
  by_cases h : b = 0
  · subst h
    simp [qdiv, Rat.divInt_eq_div]
  · have hbn : (b.num : ℚ) ≠ 0 := by
      exact_mod_cast Rat.num_ne_zero.mpr h
    rw [qdiv, Rat.divInt_eq_div]
    push_cast
    conv_rhs => rw [← Rat.num_div_den a, ← Rat.num_div_den b]
    rw [div_div_div_eq]

theorem qabs_eq (a : ℚ) : qabs a = |a| := by
  rw [qabs, qneg_eq]
  by_cases h : a < 0
  · simp [h, abs_of_neg h]
  · simp [h, abs_of_nonneg (le_of_not_lt h)]

theorem JObj.jget_jset_same : ∀ (o : JObj) (k : String) (v : JVal),
    JObj.jget (JObj.jset o k v) k = some v
  | .onil, k, v => by simp [JObj.jset, JObj.jget]
  | .ocons a b rest, k, v => by
      by_cases h : a = k
      · simp [JObj.jset, JObj.jget, h]
      · simp [JObj.jset, JObj.jget, h, JObj.jget_jset_same rest k v]

theorem JObj.jget_jset_other : ∀ (o : JObj) (k k' : String) (v : JVal), k' ≠ k →
    JObj.jget (JObj.jset o k v) k' = JObj.jget o k'
  | .onil, k, k', v, h => by simp [JObj.jset, JObj.jget, Ne.symm h]
  | .ocons a b rest, k, k', v, h => by
      by_cases hak : a = k
      · subst hak
        simp [JObj.jset, JObj.jget, Ne.symm h]
      · by_cases hak' : a = k'
        · subst hak'
          simp [JObj.jset, JObj.jget, h]
        · simp [JObj.jset, JObj.jget, hak, hak',
            JObj.jget_jset_other rest k k' v h]

theorem JVal.pget_vobj (fields : JObj) (key : String) :
    JVal.pget (.vobj fields) key = JObj.jget fields key := rfl

theorem normMetaStep_of_vobj (fields : JObj) (mf : JObj)
    (h : JObj.jget fields "meta" = some (.vobj mf)) :
    normalizeObject.normMetaStep fields = fields := by
  simp [normalizeObject.normMetaStep, h, JVal.truthy, JVal.typeofIsObject]

theorem normDataStep_jget_meta (fields : JObj) :
    JObj.jget (normalizeObject.normDataStep fields) "meta" = JObj.jget fields "meta" := by
  unfold normalizeObject.normDataStep
  rcases hd : JObj.jget fields "data" with _ | d
  · exact JObj.jget_jset_other fields "data" "meta" _ (by decide)
  · by_cases htr : (d.truthy && d.typeofIsObject) = true
    · simp [htr]
    · simp only [htr, Bool.false_eq_true, if_false]
      exact JObj.jget_jset_other fields "data" "meta" _ (by decide)

theorem normPipelineStep_of_arr (fields mf : JObj) (xs : JArr)
    (h1 : JObj.jget fields "meta" = some (.vobj mf))
    (h2 : JObj.jget mf "pipeline" = some (.varr xs)) :
    normalizeObject.normPipelineStep fields = fields := by
  simp [normalizeObject.normPipelineStep, h1, h2]

theorem normPipelineStep_not_arr (fields mf : JObj)
    (h1 : JObj.jget fields "meta" = some (.vobj mf))
    (h2 : ∀ xs, JObj.jget mf "pipeline" ≠ some (.varr xs)) :
    normalizeObject.normPipelineStep fields =
      JObj.jset fields "meta" (.vobj (JObj.jset mf "pipeline" (.varr .anil))) := by
  rcases hpl : JObj.jget mf "pipeline" with _ | v
  · simp [normalizeObject.normPipelineStep, h1, hpl]
  · cases v
    case varr xs => exact absurd hpl (h2 xs)
    all_goals simp [normalizeObject.normPipelineStep, h1, hpl]

/- ------------------------------------------------------------------------ -/
/- Claim theorems                                                            -/
/- ------------------------------------------------------------------------ -/

/-- C1: the claim fails on the code.  With `--interval-ms 100` the resolved
interval is minimist's *string* `"100"` (value-expecting parameters are
declared in minimist's `string` list), so `lastLogicalTs += intervalMs`
concatenates: after a real record with `meta.timestamp = 1000`, the first
clone carries the string `"1000100"` — not the numeric `1100` the claim (and
the module's own header comment) promises. -/
theorem minrate_interval_ms_clone_timestamp_concatenates :
    minrateIntervalMs (parseCLIOnce minrateRegistry [] ["--interval-ms", "100"] []) =
        some (.vstr "100") ∧
    ((emitClone (.vstr "100") 100350
        (minrateOnRecord true 100000
          { lastMessage := none, lastLogicalTs := .vnull, lastEmitWall := 0 }
          (.vobj (.ofList
            [("meta", .vobj (.ofList [("timestamp", .vnum 1000), ("pipeline", .varr .anil)])),
             ("data", .vobj (.ofList [("x", .vnum 7)]))]))).2).1.map (metaTsRaw ·) =
      some (.vstr "1000100")) ∧
    JVal.vstr "1000100" ≠ JVal.vnum 1100 := by
  exact ⟨by decide, by decide, by decide⟩

/-- C2: the claim fails on the code.  minimist pre-initialises every declared
boolean flag to `false`, so for boolean parameters `parsedArgs` always owns
the key: step 3.1 of `parseCLIOnce` treats the flag as CLI-supplied, and the
ENV (3.4) and default (3.5) steps are never reached.  With an empty argv and
no `TMCP_DO_TAG`, `param.do-tag` resolves to `false` — and even with
`TMCP_DO_TAG` set it still resolves to `false` — although the registry's
recorded default is `true`. -/
theorem dotag_default_bypassed_resolves_false :
    cliGetParam (parseCLIOnce coreRegistry [] [] []) "do-tag" = .vbool false ∧
    cliGetParam (parseCLIOnce coreRegistry [] [] [("TMCP_DO_TAG", "true")]) "do-tag" =
      .vbool false ∧
    ∃ p ∈ coreRegistry, p.longname = "do-tag" ∧ p.defaultVal = some (.vbool true) ∧
      p.envname = some "TMCP_DO_TAG" := by
  exact ⟨by decide, by decide, by decide⟩

/-- C3: the claim fails on the code.  `pushMain` evicts from the buffer front
every record whose `meta.timestamp ?? 0` is older than
`Date.now() - MAX_BUFFER_MS`; a primary record without a numeric timestamp
coalesces to `0`, so on an empty buffer it is evicted immediately and
`tryEmit` finds nothing: zero records are emitted for that primary record
(the passthrough branch of `tryEmit` is unreachable then), where the claim
requires exactly one.  Inputs: wall clock `100000`, `maxBufferMs = 2000`,
`matchToleranceMs = 100`, one bounded side channel, a normalized
timestamp-less record `\x7bmeta: \x7bpipeline: []\x7d, data: \x7bx: 1\x7d\x7d`. -/
theorem merge_drops_timestampless_main_record :
    (mergeMainStep true 100000 2000 100 [] [false]
        { mainBuffer := [], sideBuffers := [[]], sideLastUnbounded := [none] }
        (.vobj (.ofList
          [("meta", .vobj (.ofList [("pipeline", .varr .anil)])),
           ("data", .vobj (.ofList [("x", .vnum 1)]))]))).2 = none ∧
    (mergeMainStep true 100000 2000 100 [] [false]
        { mainBuffer := [], sideBuffers := [[]], sideLastUnbounded := [none] }
        (.vobj (.ofList
          [("meta", .vobj (.ofList [("pipeline", .varr .anil)])),
           ("data", .vobj (.ofList [("x", .vnum 1)]))]))).1.mainBuffer = [] := by
  exact ⟨by decide, by decide⟩

/-- C4 counterexample: the claim asserts that with tagging disabled
`createMeta` leaves `pipeline` uncreated; in the code `createMeta` always
creates the key (an empty array when tagging is off). -/
theorem tag_disabled_createMeta_creates_pipeline :
    ¬ (JObj.jget (createMeta false 0 "t") "pipeline" = none) := by decide

/-- C4 (amended): with tagging disabled, `appendTag` is a no-op and never
creates `meta.pipeline`; but `createMeta` still creates `pipeline` as an
empty array, and `safeWrite`'s normalization gives every emitted
object-shaped record a `meta.pipeline` — the input's array unchanged when
one was present, and a fresh empty array otherwise (so an empty pipeline
array *is* introduced for records that lacked one, independently of the tag
flag). -/
theorem tag_disabled_appendTag_noop_and_normalized_pipeline :
    (∀ meta tag, appendTag false meta tag = meta) ∧
    (∀ now tag, JObj.jget (createMeta false now tag) "pipeline" = some (.varr .anil)) ∧
    (∀ fields mf xs, JObj.jget fields "meta" = some (.vobj mf) →
      JObj.jget mf "pipeline" = some (.varr xs) →
      ∃ mf', (safeWriteCanonical (.vobj fields)).pget "meta" = some (.vobj mf') ∧
        JObj.jget mf' "pipeline" = some (.varr xs)) ∧
    (∀ fields mf, JObj.jget fields "meta" = some (.vobj mf) →
      (∀ xs, JObj.jget mf "pipeline" ≠ some (.varr xs)) →
      ∃ mf', (safeWriteCanonical (.vobj fields)).pget "meta" = some (.vobj mf') ∧
        JObj.jget mf' "pipeline" = some (.varr .anil)) := by
  refine ⟨fun meta tag => by simp [appendTag], fun now tag => rfl, ?_, ?_⟩
  · intro fields mf xs h1 h2
    refine ⟨mf, ?_, h2⟩
    have e1 : normalizeObject.normMetaStep fields = fields := normMetaStep_of_vobj fields mf h1
    have e2 : JObj.jget (normalizeObject.normDataStep fields) "meta" = some (.vobj mf) := by
      rw [normDataStep_jget_meta]
      exact h1
    have e3 : normalizeObject.normPipelineStep (normalizeObject.normDataStep fields) =
        normalizeObject.normDataStep fields := normPipelineStep_of_arr _ mf xs e2 h2
    show (JVal.vobj (normalizeObject.normPipelineStep
        (normalizeObject.normDataStep (normalizeObject.normMetaStep fields)))).pget "meta" =
      some (.vobj mf)
    rw [e1, e3, JVal.pget_vobj]
    exact e2
  · intro fields mf h1 h2
    have e1 : normalizeObject.normMetaStep fields = fields := normMetaStep_of_vobj fields mf h1
    have e2 : JObj.jget (normalizeObject.normDataStep fields) "meta" = some (.vobj mf) := by
      rw [normDataStep_jget_meta]
      exact h1
    have e3 := normPipelineStep_not_arr _ mf e2 h2
    refine ⟨JObj.jset mf "pipeline" (.varr .anil), ?_, JObj.jget_jset_same _ _ _⟩
    show (JVal.vobj (normalizeObject.normPipelineStep
        (normalizeObject.normDataStep (normalizeObject.normMetaStep fields)))).pget "meta" =
      some (.vobj (JObj.jset mf "pipeline" (.varr .anil)))
    rw [e1, e3, JVal.pget_vobj, JObj.jget_jset_same]

/-- C4 witness: the amended theorem applied to concrete inputs — `appendTag`
untouched with tagging off, `createMeta`'s empty pipeline, a record whose
pipeline array survives `safeWrite` byte-identically, and a record without
one that acquires `[]`. -/
theorem tag_disabled_appendTag_noop_and_normalized_pipeline_witness :
    appendTag false (.vobj (.ofList [("timestamp", .vnum 5)])) "mrg" =
        .vobj (.ofList [("timestamp", .vnum 5)]) ∧
    JObj.jget (createMeta false 7 "t") "pipeline" = some (.varr .anil) ∧
    (∃ mf', (safeWriteCanonical (.vobj (.ofList
        [("meta", .vobj (.ofList [("pipeline", .varr (.acons (.vstr "a") .anil))])),
         ("data", .vobj .onil)]))).pget "meta" = some (.vobj mf') ∧
        JObj.jget mf' "pipeline" = some (.varr (.acons (.vstr "a") .anil))) ∧
    (∃ mf', (safeWriteCanonical (.vobj (.ofList
        [("meta", .vobj .onil), ("data", .vobj .onil)]))).pget "meta" = some (.vobj mf') ∧
        JObj.jget mf' "pipeline" = some (.varr .anil)) :=
  ⟨tag_disabled_appendTag_noop_and_normalized_pipeline.1 _ "mrg",
   tag_disabled_appendTag_noop_and_normalized_pipeline.2.1 7 "t",
   tag_disabled_appendTag_noop_and_normalized_pipeline.2.2.1
     (.ofList
       [("meta", .vobj (.ofList [("pipeline", .varr (.acons (.vstr "a") .anil))])),
        ("data", .vobj .onil)])
     (.ofList [("pipeline", .varr (.acons (.vstr "a") .anil))])
     (.acons (.vstr "a") .anil) (by decide) (by decide),
   tag_disabled_appendTag_noop_and_normalized_pipeline.2.2.2
     (.ofList [("meta", .vobj .onil), ("data", .vobj .onil)]) .onil (by decide)
     (fun xs h => Option.noConfusion h)⟩

/-- C5 counterexample: the claim's consequence — that when a call supplies
both an explicit `exitOnClose` option and a `linger` option (and no global
override applies) the `linger` alias determines the effective value — fails:
with `exitOnClose: true, linger: true` the claim predicts `!true = false`,
but the code keeps the explicit `true` (the alias sits in an `else if`). -/
theorem linger_does_not_override_explicit_exitOnClose :
    ¬ ((resolveChannelPolicies .write .tnone
        { channelId := none, exitOnClose := some true, retry := none, linger := some true }
        [] []).exitOnClose = false) := by decide

/-- C5 (amended): the effective `exitOnClose` is resolved as built-in
default, overridden by the module-supplied boolean option — or, only when
that option is absent, by the legacy `linger` alias (`!linger`) — and
finally by the global per-channel override, which beats both. -/
theorem channel_policy_resolution_order :
    (∀ dir fd opts exOv reOv cid b,
        inferChannelId fd opts.channelId dir = some cid → cid ≠ "" →
        exOv.lookup cid = some b →
        (resolveChannelPolicies dir fd opts exOv reOv).exitOnClose = b) ∧
    (∀ dir fd opts exOv reOv b,
        opts.exitOnClose = some b →
        (∀ cid, inferChannelId fd opts.channelId dir = some cid → exOv.lookup cid = none) →
        (resolveChannelPolicies dir fd opts exOv reOv).exitOnClose = b) ∧
    (∀ dir fd opts exOv reOv l,
        opts.exitOnClose = none → opts.linger = some l →
        (∀ cid, inferChannelId fd opts.channelId dir = some cid → exOv.lookup cid = none) →
        (resolveChannelPolicies dir fd opts exOv reOv).exitOnClose = !l) ∧
    (∀ dir fd opts exOv reOv,
        opts.exitOnClose = none → opts.linger = none →
        (∀ cid, inferChannelId fd opts.channelId dir = some cid → exOv.lookup cid = none) →
        (resolveChannelPolicies dir fd opts exOv reOv).exitOnClose =
          (match dir with
           | .read => inferChannelId fd opts.channelId dir == some "stdin"
           | .write =>
               inferChannelId fd opts.channelId dir == some "stdout" ||
               inferChannelId fd opts.channelId dir == some "stderr")) := by
  refine ⟨?_, ?_, ?_, ?_⟩
  · intro dir fd opts exOv reOv cid b hcid hne hov
    simp only [resolveChannelPolicies, hcid, hov]
    rw [if_pos hne]
  · intro dir fd opts exOv reOv b hopt hnov
    simp only [resolveChannelPolicies, hopt]
    rcases hcid : inferChannelId fd opts.channelId dir with _ | cid
    · rfl
    · by_cases hne : cid = ""
      · simp [hne]
      · simp [hne, hnov cid hcid]
  · intro dir fd opts exOv reOv l hopt hlin hnov
    simp only [resolveChannelPolicies, hopt, hlin]
    rcases hcid : inferChannelId fd opts.channelId dir with _ | cid
    · rfl
    · by_cases hne : cid = ""
      · simp [hne]
      · simp [hne, hnov cid hcid]
  · intro dir fd opts exOv reOv hopt hlin hnov
    simp only [resolveChannelPolicies, hopt, hlin]
    rcases hcid : inferChannelId fd opts.channelId dir with _ | cid
    · cases dir <;> simp
    · by_cases hne : cid = ""
      · cases dir <;> simp [hne]
      · cases dir <;> simp [hne, hnov cid hcid]

/-- C5 witness: with both options supplied and no global override, the
explicit `exitOnClose: true` wins. -/
theorem channel_policy_resolution_order_witness :
    (resolveChannelPolicies .write .tnone
      { channelId := none, exitOnClose := some true, retry := none, linger := some true }
      [] []).exitOnClose = true :=
  channel_policy_resolution_order.2.1 .write .tnone
    { channelId := none, exitOnClose := some true, retry := none, linger := some true }
    [] [] true rfl (fun _ _ => rfl)

theorem reduceEntryFilter_jget (rules : List ReduceRuleInfo) : ∀ (o : JObj) (k : String),
    JObj.jget (reduceEntryFilter rules o) k =
      if strIncludes k "__" || reduceTempOf rules k then none else JObj.jget o k
  | .onil, k => by simp [reduceEntryFilter, JObj.jget]
  | .ocons a v rest, k => by
      have ih := reduceEntryFilter_jget rules rest k
      by_cases hak : a = k
      · subst hak
        by_cases h1 : strIncludes a "__"
        · simp [reduceEntryFilter, h1, ih]
        · by_cases h2 : reduceTempOf rules a
          · simp [reduceEntryFilter, h1, h2, ih]
          · simp [reduceEntryFilter, h1, h2, JObj.jget]
      · by_cases h1 : strIncludes a "__"
        · simp [reduceEntryFilter, h1, ih, JObj.jget, hak]
        · by_cases h2 : reduceTempOf rules a
          · simp [reduceEntryFilter, h1, h2, ih, JObj.jget, hak]
          · simp [reduceEntryFilter, h1, h2, JObj.jget, hak, ih]

theorem reduceKnownFilter_jget (rules : List ReduceRuleInfo) : ∀ (o : JObj) (k : String),
    JObj.jget (reduceKnownFilter rules o) k =
      if (rules.map (·.name)).contains k then JObj.jget o k else none
  | .onil, k => by simp [reduceKnownFilter, JObj.jget]
  | .ocons a v rest, k => by
      have ih := reduceKnownFilter_jget rules rest k
      by_cases hak : a = k
      · subst hak
        by_cases hc : ∃ r ∈ rules, r.name = a
        · simp [reduceKnownFilter, hc, JObj.jget]
        · simp [reduceKnownFilter, hc, ih]
      · by_cases hc : ∃ r ∈ rules, r.name = a
        · simp [reduceKnownFilter, hc, JObj.jget, hak, ih]
        · simp [reduceKnownFilter, hc, JObj.jget, hak, ih]

/-- C8 counterexample: under `forward_policy: "all"` a working-map key that
contains `__` without starting with it (here `a__b`, with no declared rules,
so it is not marked `temp`) is removed from the output, where the claim
requires it to be kept. -/
theorem reduce_all_drops_inner_double_underscore_key :
    reduceForward [] "all" (.ofList [("a__b", .vnum 1)]) = .onil ∧
    strStartsWith "a__b" "__" = false ∧
    reduceTempOf [] "a__b" = false := by
  exact ⟨by decide, by decide, by decide⟩

/-- C8 (amended): the reducer's output data is characterized exactly: a key
survives the forwarding step iff it is in the working map with the same
value, contains no `__` substring anywhere (not merely as a prefix — the
source filters with `key.includes("__")`, which also removes the retained
`name__prev` entries), is not marked `temp`, and — under
`forward_policy: "known"` — is a declared output name. -/
theorem reduce_forward_key_characterization :
    ∀ rules policy wd k v,
      JObj.jget (reduceForward rules policy wd) k = some v ↔
        (JObj.jget wd k = some v ∧ strIncludes k "__" = false ∧
          reduceTempOf rules k = false ∧
          (policy = "known" → (rules.map (·.name)).contains k = true)) := by
  intro rules policy wd k v
  unfold reduceForward
  by_cases hp : policy = "known"
  · simp only [hp, if_true, reduceKnownFilter_jget, reduceEntryFilter_jget]
    by_cases hc : ∃ r ∈ rules, r.name = k
    · by_cases h1 : strIncludes k "__"
      · simp [hc, h1]
      · by_cases h2 : reduceTempOf rules k
        · simp [hc, h1, h2]
        · simp [hc, h1, h2]
    · simp [hc]
  · simp only [hp, if_false, reduceEntryFilter_jget]
    by_cases h1 : strIncludes k "__"
    · simp [h1, hp]
    · by_cases h2 : reduceTempOf rules k
      · simp [h1, h2, hp]
      · simp [h1, h2, hp]

/-- C8 witness: the characterization applied at a concrete working map —
`speed` survives under `known` with declared non-temp rule `speed`. -/
theorem reduce_forward_key_characterization_witness :
    JObj.jget
      (reduceForward [{ name := "speed", temp := false }] "known"
        (.ofList [("raw", .vnum 3), ("speed", .vnum 9), ("speed__prev", .vnum 8)]))
      "speed" = some (.vnum 9) :=
  (reduce_forward_key_characterization [{ name := "speed", temp := false }] "known"
      (.ofList [("raw", .vnum 3), ("speed", .vnum 9), ("speed__prev", .vnum 8)])
      "speed" (.vnum 9)).mpr
    ⟨by decide, by decide, by decide, fun _ => by decide⟩

/-- C9 counterexample: a one-slot, non-variadic schema given two positionals
(`x`, `y`) produces no usage error and no help/exit — the excess positional
is silently ignored — where the claim requires a configuration error with a
non-zero exit. -/
theorem excess_positionals_not_an_error :
    (parseCLIOnce coreRegistry [{ name := "a", required := true, varargs := false }]
        ["x", "y"] []).isError = false ∧
    (parseCLIOnce coreRegistry [{ name := "a", required := true, varargs := false }]
        ["x", "y"] []).showHelp = false ∧
    (parseCLIOnce coreRegistry [{ name := "a", required := true, varargs := false }]
        ["x", "y"] []).named = [("a", .vstr "x")] ∧
    (parseCLIOnce coreRegistry [{ name := "a", required := true, varargs := false }]
        ["x", "y"] []).positionals = [.vstr "x", .vstr "y"] := by
  exact ⟨by decide, by decide, by decide, by decide⟩

theorem applyPositionalsSchema_ne_nil (schema : List PosSpec) (pos : List JVal)
    (h : schema ≠ []) : (applyPositionalsSchema schema pos).1 ≠ [] := by
  cases schema with
  | nil => exact absurd rfl h
  | cons s rest =>
      unfold applyPositionalsSchema
      by_cases hv : s.varargs <;> simp [hv]

theorem getLast?_cons_ne_nil {α : Type} (a : α) (l : List α) (h : l ≠ []) :
    (a :: l).getLast? = l.getLast? := by
  cases l with
  | nil => exact absurd rfl h
  | cons b t => simp [List.getLast?_cons_cons]

/-- C9 (amended): supplying more positionals than declared slots is never
flagged as an error — whenever every slot can be filled
(`schema.length ≤ pos.length`, in particular when positionals are in
excess), `applyPositionalsSchema` reports no error, whether or not the last
slot is variadic; and when the last slot is variadic it absorbs all
remaining positionals.  Excess positionals beyond a non-variadic schema are
silently ignored (they stay only in the raw positional list). -/
theorem positionals_excess_silently_ignored :
    (∀ schema pos, schema.length ≤ pos.length →
        (applyPositionalsSchema schema pos).2 = false) ∧
    (∀ front name req pos, (∀ s ∈ front, s.varargs = false) →
        ((applyPositionalsSchema
            (front ++ [{ name := name, required := req, varargs := true }]) pos).1).getLast? =
          some (name, .varr (JArr.ofList (pos.drop front.length)))) := by
  constructor
  · intro schema
    induction schema with
    | nil => intro pos _; rfl
    | cons s rest ih =>
        intro pos hlen
        have hlen' : rest.length + 1 ≤ pos.length := by simpa using hlen
        have hne : pos ≠ [] := by
          intro h
          subst h
          simp at hlen'
        have hie : pos.isEmpty = false := by
          cases pos with
          | nil => exact absurd rfl hne
          | cons a t => rfl
        have hrec := ih (pos.drop 1) (by simp [List.length_drop]; omega)
        rw [List.drop_one] at hrec
        unfold applyPositionalsSchema
        by_cases hv : s.varargs
        · simp [hv, hie]
        · simp [hv, hie, hrec]
  · intro front
    induction front with
    | nil =>
        intro name req pos _
        simp [applyPositionalsSchema]
    | cons s rest ih =>
        intro name req pos hnv
        have hs : s.varargs = false := hnv s (by simp)
        have hrest : ∀ s' ∈ rest, s'.varargs = false := fun s' h => hnv s' (by simp [h])
        have ihr := ih name req (pos.drop 1) hrest
        unfold applyPositionalsSchema
        simp only [List.cons_append, hs, Bool.false_eq_true, if_false]
        rw [getLast?_cons_ne_nil _ _ (applyPositionalsSchema_ne_nil _ _ (by simp))]
        rw [ihr]
        simp [List.drop_drop]

/-- C9 witness: the amended theorem at concrete inputs — a one-slot schema
with two positionals errors nowhere, and a variadic tail absorbs the rest. -/
theorem positionals_excess_silently_ignored_witness :
    (applyPositionalsSchema [{ name := "a", required := true, varargs := false }]
        [.vstr "x", .vstr "y"]).2 = false ∧
    ((applyPositionalsSchema
        [{ name := "cfg", required := true, varargs := false },
         { name := "side", required := true, varargs := true }]
        [.vstr "c", .vstr "p1", .vstr "p2"]).1).getLast? =
      some ("side", .varr (JArr.ofList [.vstr "p1", .vstr "p2"])) :=
  ⟨positionals_excess_silently_ignored.1 _ [.vstr "x", .vstr "y"] (by decide),
   positionals_excess_silently_ignored.2
     [{ name := "cfg", required := true, varargs := false }] "side" true
     [.vstr "c", .vstr "p1", .vstr "p2"] (by decide)⟩

/-- C10: confirmed.  With no `checkFields` configured, key disappearance is
never a change: whenever every comparison field (the current data's keys
minus `ignoreFields`) is present in the remembered data with a
tolerance-equal value — in particular when the current keys are a subset of
the remembered keys — the record is dropped; and on any drop (for any
configuration) the remembered data is left untouched, being updated only
when a record is emitted. -/
theorem dedup_key_subset_dropped_state_preserved :
    (∀ tagOn tol ignoreFields lastData obj currFields,
        obj.pget "data" = some (.vobj currFields) →
        (∀ k ∈ computeComparisonFields none ignoreFields currFields,
            (JObj.jget lastData k).isSome = true ∧
            dedupValueEq tol ((JObj.jget currFields k).getD .vundef)
              ((JObj.jget lastData k).getD .vundef) = true) →
        dedupStep tagOn tol none ignoreFields (some lastData) obj =
          (none, some lastData)) ∧
    (∀ tagOn tol checkFields ignoreFields lastState obj,
        (dedupStep tagOn tol checkFields ignoreFields lastState obj).1 = none →
        (dedupStep tagOn tol checkFields ignoreFields lastState obj).2 = lastState) := by
  constructor
  · intro tagOn tol ignoreFields lastData obj currFields h1 h2
    have hch : hasMeaningfulChange tol none ignoreFields (some lastData) currFields = false := by
      unfold hasMeaningfulChange
      rw [Bool.or_eq_false_iff]
      constructor
      · rw [List.any_eq_false]
        intro k hk
        have := (h2 k hk).1
        simp [JObj.hasKey, this]
      · rw [List.any_eq_false]
        intro k hk
        unfold dedupFieldChanged
        have hks := (h2 k hk).1
        have hveq := (h2 k hk).2
        simp [JObj.hasKey, hks, hveq]
    unfold dedupStep
    rw [h1]
    simp only [JVal.truthy, Bool.not_true, Bool.false_eq_true, if_false]
    have hcu : jsOwnFields (.vobj currFields) = currFields := rfl
    rw [hcu, hch]
    simp
  · intro tagOn tol cf ig last obj h
    unfold dedupStep at h ⊢
    rcases hd : obj.pget "data" with _ | d
    · simp
    · simp only [hd] at h ⊢
      by_cases ht : d.truthy
      · simp only [ht, Bool.not_true, Bool.false_eq_true, if_false] at h ⊢
        by_cases hch : hasMeaningfulChange tol cf ig last (jsOwnFields d)
        · simp [hch] at h
        · simp [hch]
      · simp only [Bool.not_eq_true] at ht
        simp [ht]

theorem foldlMin_spec (ts : ℚ) : ∀ (l : List JVal) (acc : JVal × ℚ),
    acc.2 = sideDiff ts acc.1 →
    ((l.foldl (fun acc rec => if sideDiff ts rec < acc.2 then (rec, sideDiff ts rec) else acc)
        acc).1 = acc.1 ∨
      (l.foldl (fun acc rec => if sideDiff ts rec < acc.2 then (rec, sideDiff ts rec) else acc)
        acc).1 ∈ l) ∧
    (l.foldl (fun acc rec => if sideDiff ts rec < acc.2 then (rec, sideDiff ts rec) else acc)
        acc).2 =
      sideDiff ts (l.foldl
        (fun acc rec => if sideDiff ts rec < acc.2 then (rec, sideDiff ts rec) else acc) acc).1 ∧
    (l.foldl (fun acc rec => if sideDiff ts rec < acc.2 then (rec, sideDiff ts rec) else acc)
        acc).2 ≤ acc.2 ∧
    ∀ r' ∈ l,
      (l.foldl (fun acc rec => if sideDiff ts rec < acc.2 then (rec, sideDiff ts rec) else acc)
          acc).2 ≤ sideDiff ts r'
  | [], acc, hacc => by
      refine ⟨Or.inl rfl, hacc, le_refl _, ?_⟩
      intro r' hr'
      simp at hr'
  | x :: xs, acc, hacc => by
      simp only [List.foldl_cons]
      by_cases hx : sideDiff ts x < acc.2
      · have ih := foldlMin_spec ts xs (x, sideDiff ts x) rfl
        rw [if_pos hx]
        refine ⟨?_, ih.2.1, ?_, ?_⟩
        · rcases ih.1 with h | h
          · exact Or.inr (by rw [h]; exact List.mem_cons_self x xs)
          · exact Or.inr (List.mem_cons_of_mem x h)
        · exact le_trans ih.2.2.1 (le_of_lt hx)
        · intro r' hr'
          rcases List.mem_cons.mp hr' with h | h
          · subst h
            exact ih.2.2.1
          · exact ih.2.2.2 r' h
      · have ih := foldlMin_spec ts xs acc hacc
        rw [if_neg hx]
        refine ⟨?_, ih.2.1, ih.2.2.1, ?_⟩
        · rcases ih.1 with h | h
          · exact Or.inl h
          · exact Or.inr (List.mem_cons_of_mem x h)
        · intro r' hr'
          rcases List.mem_cons.mp hr' with h | h
          · subst h
            exact le_trans ih.2.2.1 (le_of_not_lt hx)
          · exact ih.2.2.2 r' h

theorem findClosest_eq_some (tol : ℚ) (buf : List JVal) (ts : ℚ) (r : JVal)
    (h : findClosest tol buf ts = some r) :
    r ∈ buf ∧ sideDiff ts r ≤ tol ∧ ∀ r' ∈ buf, sideDiff ts r ≤ sideDiff ts r' := by
  match buf with
  | [] => exact absurd h (by simp [findClosest])
  | first :: rest =>
      have spec := foldlMin_spec ts (first :: rest) (first, sideDiff ts first) rfl
      have hdef : findClosest tol (first :: rest) ts =
          if ((first :: rest).foldl
              (fun acc rec => if sideDiff ts rec < acc.2 then (rec, sideDiff ts rec) else acc)
              (first, sideDiff ts first)).2 > tol then none
          else some ((first :: rest).foldl
              (fun acc rec => if sideDiff ts rec < acc.2 then (rec, sideDiff ts rec) else acc)
              (first, sideDiff ts first)).1 := rfl
      rw [hdef] at h
      by_cases hgt :
          ((first :: rest).foldl
            (fun acc rec => if sideDiff ts rec < acc.2 then (rec, sideDiff ts rec) else acc)
            (first, sideDiff ts first)).2 > tol
      · rw [if_pos hgt] at h
        exact absurd h (by simp)
      · rw [if_neg hgt] at h
        have hr : r = ((first :: rest).foldl
            (fun acc rec => if sideDiff ts rec < acc.2 then (rec, sideDiff ts rec) else acc)
            (first, sideDiff ts first)).1 := by
          injection h with h'
          exact h'.symm
        subst hr
        refine ⟨?_, ?_, ?_⟩
        · rcases spec.1 with heq | hmem
          · rw [heq]
            exact List.mem_cons_self first rest
          · exact hmem
        · rw [← spec.2.1]
          exact le_of_not_lt hgt
        · intro r' hr'
          rw [← spec.2.1]
          exact spec.2.2.2 r' hr'

theorem findClosest_eq_none_of_far (tol : ℚ) (buf : List JVal) (ts : ℚ)
    (h : ∀ r ∈ buf, tol < sideDiff ts r) : findClosest tol buf ts = none := by
  match buf with
  | [] => rfl
  | first :: rest =>
      have spec := foldlMin_spec ts (first :: rest) (first, sideDiff ts first) rfl
      have hdef : findClosest tol (first :: rest) ts =
          if ((first :: rest).foldl
              (fun acc rec => if sideDiff ts rec < acc.2 then (rec, sideDiff ts rec) else acc)
              (first, sideDiff ts first)).2 > tol then none
          else some ((first :: rest).foldl
              (fun acc rec => if sideDiff ts rec < acc.2 then (rec, sideDiff ts rec) else acc)
              (first, sideDiff ts first)).1 := rfl
      have hmem : ((first :: rest).foldl
          (fun acc rec => if sideDiff ts rec < acc.2 then (rec, sideDiff ts rec) else acc)
          (first, sideDiff ts first)).1 ∈ first :: rest := by
        rcases spec.1 with heq | hmem
        · rw [heq]
          exact List.mem_cons_self first rest
        · exact hmem
      rw [hdef, if_pos]
      rw [spec.2.1]
      exact h _ hmem

theorem findClosest_isSome_of_close (tol : ℚ) (buf : List JVal) (ts : ℚ) (r₀ : JVal)
    (hmem : r₀ ∈ buf) (hdiff : sideDiff ts r₀ ≤ tol) :
    ∃ r, findClosest tol buf ts = some r := by
  match buf, hmem with
  | first :: rest, hm =>
      have spec := foldlMin_spec ts (first :: rest) (first, sideDiff ts first) rfl
      have hdef : findClosest tol (first :: rest) ts =
          if ((first :: rest).foldl
              (fun acc rec => if sideDiff ts rec < acc.2 then (rec, sideDiff ts rec) else acc)
              (first, sideDiff ts first)).2 > tol then none
          else some ((first :: rest).foldl
              (fun acc rec => if sideDiff ts rec < acc.2 then (rec, sideDiff ts rec) else acc)
              (first, sideDiff ts first)).1 := rfl
      have hle : ((first :: rest).foldl
          (fun acc rec => if sideDiff ts rec < acc.2 then (rec, sideDiff ts rec) else acc)
          (first, sideDiff ts first)).2 ≤ tol :=
        le_trans (spec.2.2.2 r₀ hm) hdiff
      rw [hdef, if_neg (not_lt.mpr hle)]
      exact ⟨_, rfl⟩

theorem interpFields_jget (ratio : ℚ) (after : JVal) (af : JObj)
    (haf : after.pget "data" = some (.vobj af)) :
    ∀ (bd : JObj) (k : String) (x1 x2 : ℚ),
      JObj.jget bd k = some (.vnum x1) →
      JObj.jget af k = some (.vnum x2) →
      JObj.jget (interpFields ratio after bd) k =
        some (.vnum (qadd x1 (qmul (qsub x2 x1) ratio)))
  | .onil, k, x1, x2, h1, _ => by simp [JObj.jget] at h1
  | .ocons a v rest, k, x1, x2, h1, h2 => by
      by_cases hak : a = k
      · subst hak
        have hv : v = .vnum x1 := by
          simpa [JObj.jget] using h1
        subst hv
        simp [interpFields, JObj.jget, haf, h2]
      · have h1' : JObj.jget rest k = some (.vnum x1) := by
          simpa [JObj.jget, hak] using h1
        simp [interpFields, JObj.jget, hak,
          interpFields_jget ratio after af haf rest k x1 x2 h1' h2]

/-- C6: confirmed.  In bounded mode at main timestamp `ts`: (1) when some
side record lies within `matchToleranceMs`, `interpolateBounded` returns a
member of the window that is nearest (no record is closer) and within
tolerance, used as-is; (2) when every record is farther than the tolerance
and a `before` (last record at or before `ts`) and an `after` (first record
after `ts`) exist with `before` strictly older, the result is a synthesized
record whose `meta.timestamp` is `ts` and whose data, at every key that is
numeric in both endpoint records, equals
`before + (after - before) · (ts - before.ts)/(after.ts - before.ts)`. -/
theorem merge_bounded_interpolation_correct :
    (∀ tol buf ts r₀, r₀ ∈ buf → sideDiff ts r₀ ≤ tol →
        ∃ r ∈ buf, interpolateBounded tol buf ts = some r ∧ sideDiff ts r ≤ tol ∧
          ∀ r' ∈ buf, sideDiff ts r ≤ sideDiff ts r') ∧
    (∀ tol buf ts b a bf bd bm af,
        (∀ r ∈ buf, tol < sideDiff ts r) →
        (buf.filter fun o => tsNumOf o ≤ ts).getLast? = some b →
        buf.find? (fun o => ts < tsNumOf o) = some a →
        tsNumOf b < tsNumOf a →
        b = .vobj bf →
        JObj.jget bf "data" = some (.vobj bd) →
        JObj.jget bf "meta" = some (.vobj bm) →
        a.pget "data" = some (.vobj af) →
        ∃ outF dOut mo,
          interpolateBounded tol buf ts = some (.vobj outF) ∧
          JObj.jget outF "meta" = some (.vobj mo) ∧
          JObj.jget mo "timestamp" = some (.vnum ts) ∧
          JObj.jget outF "data" = some (.vobj dOut) ∧
          ∀ k x1 x2, JObj.jget bd k = some (.vnum x1) → JObj.jget af k = some (.vnum x2) →
            JObj.jget dOut k =
              some (.vnum (x1 + (x2 - x1) * ((ts - tsNumOf b) / (tsNumOf a - tsNumOf b))))) := by
  constructor
  · intro tol buf ts r₀ hmem hdiff
    obtain ⟨r, hfc⟩ := findClosest_isSome_of_close tol buf ts r₀ hmem hdiff
    obtain ⟨hrm, hrt, hrmin⟩ := findClosest_eq_some tol buf ts r hfc
    refine ⟨r, hrm, ?_, hrt, hrmin⟩
    unfold interpolateBounded
    rw [hfc]
  · intro tol buf ts b a bf bd bm af hfar hb ha hlt hbv hbd hbm haf
    have hfc : findClosest tol buf ts = none := findClosest_eq_none_of_far tol buf ts hfar
    subst hbv
    have hlt' : ¬ (tsNumOf a ≤ tsNumOf (.vobj bf)) := not_le.mpr hlt
    have hne1 : ("meta" : String) ≠ "data" := by decide
    have hmeta1 : JObj.jget (JObj.jset bf "data" (.vobj (interpFields
        (qdiv (qsub ts (tsNumOf (.vobj bf))) (qsub (tsNumOf a) (tsNumOf (.vobj bf)))) a bd)))
        "meta" = some (.vobj bm) := by
      rw [JObj.jget_jset_other _ _ _ _ hne1, hbm]
    unfold interpolateBounded
    simp only [hfc, hb, ha, if_neg hlt', JVal.pget_vobj, hbd, hmeta1]
    refine ⟨_, interpFields
        (qdiv (qsub ts (tsNumOf (.vobj bf))) (qsub (tsNumOf a) (tsNumOf (.vobj bf)))) a bd,
      JObj.jset bm "timestamp" (.vnum ts), rfl, ?_, ?_, ?_, ?_⟩
    · exact JObj.jget_jset_same _ _ _
    · exact JObj.jget_jset_same _ _ _
    · rw [JObj.jget_jset_other _ _ _ _ (by decide)]
      exact JObj.jget_jset_same _ _ _
    · intro k x1 x2 h1 h2
      rw [interpFields_jget _ a af haf bd k x1 x2 h1 h2, qadd_eq, qmul_eq, qsub_eq, qsub_eq,
        qsub_eq, qdiv_eq]

/-- C6 witness: bounded window holding records at 980 (`y = 10`) and 1020
(`y = 20`), tolerance 10, main timestamp 1000: both records are 20 ms away,
so the module interpolates, yielding `meta.timestamp = 1000` and
`y = 10 + (20 - 10) · (1000 - 980)/(1020 - 980) = 15`. -/
theorem merge_bounded_interpolation_correct_witness :
    ∃ outF dOut mo,
      interpolateBounded 10
        [.vobj (.ofList [("meta", .vobj (.ofList [("timestamp", .vnum 980)])),
            ("data", .vobj (.ofList [("y", .vnum 10)]))]),
         .vobj (.ofList [("meta", .vobj (.ofList [("timestamp", .vnum 1020)])),
            ("data", .vobj (.ofList [("y", .vnum 20)]))])] 1000 = some (.vobj outF) ∧
      JObj.jget outF "meta" = some (.vobj mo) ∧
      JObj.jget mo "timestamp" = some (.vnum 1000) ∧
      JObj.jget outF "data" = some (.vobj dOut) ∧
      JObj.jget dOut "y" = some (.vnum 15) := by
  have h := merge_bounded_interpolation_correct.2 10
    [.vobj (.ofList [("meta", .vobj (.ofList [("timestamp", .vnum 980)])),
        ("data", .vobj (.ofList [("y", .vnum 10)]))]),
     .vobj (.ofList [("meta", .vobj (.ofList [("timestamp", .vnum 1020)])),
        ("data", .vobj (.ofList [("y", .vnum 20)]))])] 1000
    (.vobj (.ofList [("meta", .vobj (.ofList [("timestamp", .vnum 980)])),
        ("data", .vobj (.ofList [("y", .vnum 10)]))]))
    (.vobj (.ofList [("meta", .vobj (.ofList [("timestamp", .vnum 1020)])),
        ("data", .vobj (.ofList [("y", .vnum 20)]))]))
    (.ofList [("meta", .vobj (.ofList [("timestamp", .vnum 980)])),
        ("data", .vobj (.ofList [("y", .vnum 10)]))])
    (.ofList [("y", .vnum 10)]) (.ofList [("timestamp", .vnum 980)])
    (.ofList [("y", .vnum 20)])
    (by decide) (by decide) (by decide) (by decide) rfl (by decide) (by decide) (by decide)
  obtain ⟨outF, dOut, mo, h1, h2, h3, h4, h5⟩ := h
  refine ⟨outF, dOut, mo, h1, h2, h3, h4, ?_⟩
  have h6 := h5 "y" 10 20 (by decide) (by decide)
  have e1 : tsNumOf (.vobj (.ofList [("meta", .vobj (.ofList [("timestamp", .vnum 980)])),
      ("data", .vobj (.ofList [("y", .vnum 10)]))])) = 980 := by decide
  have e2 : tsNumOf (.vobj (.ofList [("meta", .vobj (.ofList [("timestamp", .vnum 1020)])),
      ("data", .vobj (.ofList [("y", .vnum 20)]))])) = 1020 := by decide
  rw [e1, e2] at h6
  norm_num at h6
  exact h6

theorem safeWriteCanonical_meta (fields mf : JObj) (xs : JArr)
    (h1 : JObj.jget fields "meta" = some (.vobj mf))
    (h2 : JObj.jget mf "pipeline" = some (.varr xs)) :
    (safeWriteCanonical (.vobj fields)).pget "meta" = some (.vobj mf) := by
  have e1 : normalizeObject.normMetaStep fields = fields := normMetaStep_of_vobj fields mf h1
  have e2 : JObj.jget (normalizeObject.normDataStep fields) "meta" = some (.vobj mf) := by
    rw [normDataStep_jget_meta]
    exact h1
  have e3 : normalizeObject.normPipelineStep (normalizeObject.normDataStep fields) =
      normalizeObject.normDataStep fields := normPipelineStep_of_arr _ mf xs e2 h2
  show (JVal.vobj (normalizeObject.normPipelineStep
      (normalizeObject.normDataStep (normalizeObject.normMetaStep fields)))).pget "meta" =
    some (.vobj mf)
  rw [e1, e3, JVal.pget_vobj]
  exact e2

theorem appendTag_vobj_fields (ton : Bool) (mf : JObj) (tag : String) (xs : JArr)
    (hpl : JObj.jget mf "pipeline" = some (.varr xs)) :
    ∃ mf', appendTag ton (.vobj mf) tag = .vobj mf' ∧
      JObj.jget mf' "timestamp" = JObj.jget mf "timestamp" ∧
      ∃ ys, JObj.jget mf' "pipeline" = some (.varr ys) := by
  cases ton with
  | false => exact ⟨mf, by simp [appendTag], rfl, xs, hpl⟩
  | true =>
      refine ⟨JObj.jset mf "pipeline"
          (.varr (JArr.append xs (.acons (.vstr tag) .anil))), ?_, ?_, ?_⟩
      · simp [appendTag, JVal.truthy, JVal.typeofIsObject, hpl]
      · exact JObj.jget_jset_other _ _ _ _ (by decide)
      · exact ⟨_, JObj.jget_jset_same _ _ _⟩

theorem emitItem_ts (tagOn : Bool) (item : ℚ × JVal) :
    metaTsRaw (emitItem tagOn item) = .vnum item.1 := by
  have key : ∀ (ofld nm0 : JObj) (xs : JArr),
      JObj.jget nm0 "timestamp" = some (.vnum item.1) →
      JObj.jget nm0 "pipeline" = some (.varr xs) →
      metaTsRaw (safeWriteCanonical
        (.vobj (JObj.jset ofld "meta" (appendTag tagOn (.vobj nm0) "dly")))) = .vnum item.1 := by
    intro ofld nm0 xs hts hpl
    obtain ⟨mf', ha, htsp, ys, hplp⟩ := appendTag_vobj_fields tagOn nm0 "dly" xs hpl
    rw [ha]
    have hmeta : JObj.jget (JObj.jset ofld "meta" (.vobj mf')) "meta" = some (.vobj mf') :=
      JObj.jget_jset_same _ _ _
    have hnorm := safeWriteCanonical_meta _ mf' ys hmeta hplp
    simp only [metaTsRaw, hnorm]
    rw [JVal.pget_vobj, htsp, hts]
    rfl
  unfold emitItem
  apply key
  · exact JObj.jget_jset_same _ _ _
  · rw [JObj.jget_jset_other _ _ _ _ (by decide)]
    exact JObj.jget_jset_same _ _ _

theorem flushReady_eq (tagOn : Bool) (wm : Option ℚ) : ∀ q : List (ℚ × JVal),
    flushReady tagOn wm q =
      (q.dropWhile (fun it => wmGe wm it.1),
       (q.takeWhile (fun it => wmGe wm it.1)).map (emitItem tagOn))
  | [] => rfl
  | item :: rest => by
      by_cases h : wmGe wm item.1 = true
      · simp [flushReady, h, List.dropWhile_cons, List.takeWhile_cons,
          flushReady_eq tagOn wm rest]
      · simp [flushReady, h, List.dropWhile_cons, List.takeWhile_cons]

theorem bisectUpper_all_le (q : List (ℚ × JVal)) (v : ℚ)
    (h : ∀ i, i < q.length → (q.getD i (0, .vundef)).1 ≤ v) :
    ∀ fuel lo hi, lo ≤ hi → hi ≤ q.length → hi - lo ≤ fuel →
      bisectUpper q v fuel lo hi = hi
  | 0, lo, hi, hlo, _, hfuel => by
      have heq : lo = hi := by omega
      subst heq
      rfl
  | fuel + 1, lo, hi, hlo, hhi, hfuel => by
      unfold bisectUpper
      by_cases hlt : lo < hi
      · have hmlt : (lo + hi) / 2 < hi := by omega
        have hmle := h _ (lt_of_lt_of_le hmlt hhi)
        rw [if_pos hlt]
        dsimp only
        rw [if_pos hmle]
        exact bisectUpper_all_le q v h fuel ((lo + hi) / 2 + 1) hi (by omega) hhi (by omega)
      · rw [if_neg hlt]
        omega

theorem insertSorted_append (q : List (ℚ × JVal)) (item : ℚ × JVal)
    (h : ∀ it ∈ q, it.1 ≤ item.1) : insertSorted q item = q ++ [item] := by
  have hb : bisectUpper q item.1 (q.length + 1) 0 q.length = q.length := by
    refine bisectUpper_all_le q item.1 ?_ (q.length + 1) 0 q.length (Nat.zero_le _) le_rfl
      (by omega)
    intro i hi
    have hg : q.getD i (0, .vundef) = q[i] := by
      simp [List.getD_eq_getElem?_getD, List.getElem?_eq_getElem hi]
    rw [hg]
    exact h _ (List.getElem_mem hi)
  unfold insertSorted
  simp [hb, List.take_length, List.drop_length]

theorem recTs_eq_some (o : JVal) (t : ℚ) (h : recTs o = some t) : metaTsRaw o = .vnum t := by
  unfold recTs at h
  rcases hm : metaTsRaw o with _ | _ | b | x | s | xs | f <;> rw [hm] at h <;> simp_all

theorem dropWhile_map_fst (p : ℚ → Bool) :
    ∀ l : List (ℚ × JVal),
      (l.dropWhile (fun it => p it.1)).map Prod.fst = (l.map Prod.fst).dropWhile p
  | [] => rfl
  | x :: xs => by
      by_cases h : p x.1 = true
      · simp only [List.dropWhile_cons, List.map_cons, h, if_true]
        exact dropWhile_map_fst p xs
      · simp [List.dropWhile_cons, h]

theorem takeWhile_map_fst (p : ℚ → Bool) :
    ∀ l : List (ℚ × JVal),
      (l.takeWhile (fun it => p it.1)).map Prod.fst = (l.map Prod.fst).takeWhile p
  | [] => rfl
  | x :: xs => by
      by_cases h : p x.1 = true
      · simp only [List.takeWhile_cons, List.map_cons, h, if_true]
        exact congrArg (x.1 :: ·) (takeWhile_map_fst p xs)
      · simp [List.takeWhile_cons, h]

theorem delayRun_fifo_aux (tagOn : Bool) (D : ℚ) :
    ∀ (inputs : List (ℚ × JVal)) (tsL : List ℚ) (st : DelayState),
      inputs.map (fun p => recTs p.2) = tsL.map some →
      List.Pairwise (· ≤ ·) (st.queue.map Prod.fst ++ tsL.map (fun t => qadd t D)) →
      (∀ u ∈ tsL, wmLeB st.watermark u = true) →
      ((delayRun tagOn D st inputs).2 ++
          flushAll tagOn (delayRun tagOn D st inputs).1.queue).map metaTsRaw =
        (st.queue.map Prod.fst ++ tsL.map (fun t => qadd t D)).map JVal.vnum
  | [], tsL, st, hmap, hpair, hwm => by
      have htsnil : tsL = [] := by
        cases tsL with
        | nil => rfl
        | cons a l => exact absurd hmap (by simp)
      subst htsnil
      simp only [delayRun, List.nil_append, List.map_nil, List.append_nil, flushAll,
        List.map_map, Function.comp_def, emitItem_ts]
  | (now, obj) :: rest, tsL, st, hmap, hpair, hwm => by
      obtain ⟨t, tsL', rfl⟩ : ∃ t tsL', tsL = t :: tsL' := by
        cases tsL with
        | nil => exact absurd hmap (by simp)
        | cons a l => exact ⟨a, l, rfl⟩
      rw [List.map_cons, List.map_cons] at hmap
      injection hmap with h1 h2
      have hmt : metaTsRaw obj = .vnum t := recTs_eq_some obj t h1
      rw [List.map_cons, List.pairwise_append] at hpair
      obtain ⟨hpwq, hpwc, hcross⟩ := hpair
      rw [List.pairwise_cons] at hpwc
      obtain ⟨hth, htlpw⟩ := hpwc
      have hwmt := hwm t (List.mem_cons_self t tsL')
      have hwm' : (if wmLt st.watermark t then some t else st.watermark) = some t := by
        cases hsw : st.watermark with
        | none => simp [wmLt]
        | some w =>
            rw [hsw] at hwmt
            have hwle : w ≤ t := by simpa [wmLeB] using hwmt
            by_cases hlt : w < t
            · simp [wmLt, hlt]
            · have hwt : w = t := le_antisymm hwle (le_of_not_lt hlt)
              simp [wmLt, hlt, hwt]
      have hins : insertSorted st.queue (qadd t D, obj) = st.queue ++ [(qadd t D, obj)] := by
        apply insertSorted_append
        intro it hit
        have hm1 : it.1 ∈ st.queue.map Prod.fst := List.mem_map_of_mem Prod.fst hit
        show it.1 ≤ qadd t D
        exact hcross it.1 hm1 (qadd t D) (List.mem_cons_self _ _)
      have hing : delayIngest tagOn D now st obj =
          ({ queue := (st.queue ++ [(qadd t D, obj)]).dropWhile
                (fun it => wmGe (some t) it.1),
             watermark := some t },
           ((st.queue ++ [(qadd t D, obj)]).takeWhile
                (fun it => wmGe (some t) it.1)).map (emitItem tagOn)) := by
        unfold delayIngest
        simp only [hmt]
        rw [hwm', hins, flushReady_eq]
      have hqmap : (st.queue ++ [(qadd t D, obj)]).map Prod.fst =
          st.queue.map Prod.fst ++ [qadd t D] := by
        rw [List.map_append]
        rfl
      have hq' : ((st.queue ++ [(qadd t D, obj)]).dropWhile
            (fun it => wmGe (some t) it.1)).map Prod.fst =
          (st.queue.map Prod.fst ++ [qadd t D]).dropWhile (fun x => wmGe (some t) x) := by
        rw [dropWhile_map_fst (fun x => wmGe (some t) x), hqmap]
      have hbig : List.Pairwise (· ≤ ·) (st.queue.map Prod.fst ++ [qadd t D]) := by
        refine List.pairwise_append.mpr ⟨hpwq, List.pairwise_singleton _ _, ?_⟩
        intro a ha b hb
        have hb' : b = qadd t D := by simpa using hb
        subst hb'
        exact hcross a ha _ (List.mem_cons_self _ _)
      have hpair' : List.Pairwise (· ≤ ·)
          ((((st.queue ++ [(qadd t D, obj)]).dropWhile
              (fun it => wmGe (some t) it.1)).map Prod.fst) ++
            tsL'.map (fun u => qadd u D)) := by
        rw [hq']
        refine List.pairwise_append.mpr ⟨hbig.sublist (List.dropWhile_sublist _), htlpw, ?_⟩
        intro a ha u hu
        have ha' : a ∈ st.queue.map Prod.fst ++ [qadd t D] :=
          (List.dropWhile_sublist _).subset ha
        rcases List.mem_append.mp ha' with hx | hx
        · exact hcross a hx _ (List.mem_cons_of_mem _ hu)
        · have hax : a = qadd t D := by simpa using hx
          subst hax
          exact hth _ hu
      have hwm'' : ∀ u ∈ tsL', wmLeB (some t) u = true := by
        intro u hu
        have hc := hth (qadd u D) (List.mem_map_of_mem _ hu)
        rw [qadd_eq, qadd_eq] at hc
        have htu : t ≤ u := le_of_add_le_add_right hc
        simpa [wmLeB] using htu
      have ih := delayRun_fifo_aux tagOn D rest tsL'
        { queue := (st.queue ++ [(qadd t D, obj)]).dropWhile (fun it => wmGe (some t) it.1),
          watermark := some t } h2 hpair' hwm''
      have hE : (((st.queue ++ [(qadd t D, obj)]).takeWhile
            (fun it => wmGe (some t) it.1)).map (emitItem tagOn)).map metaTsRaw =
          ((st.queue.map Prod.fst ++ [qadd t D]).takeWhile (fun x => wmGe (some t) x)).map
            JVal.vnum := by
        rw [List.map_map]
        have hcomp : metaTsRaw ∘ emitItem tagOn = fun it : ℚ × JVal => JVal.vnum it.1 := by
          funext it
          exact emitItem_ts tagOn it
        rw [hcomp]
        have hcomp2 : (fun it : ℚ × JVal => JVal.vnum it.1) = JVal.vnum ∘ Prod.fst := rfl
        rw [hcomp2, ← List.map_map, takeWhile_map_fst (fun x => wmGe (some t) x), hqmap]
      simp only [delayRun]
      rw [hing]
      simp only
      rw [List.append_assoc, List.map_append, ih, hE, hq']
      rw [← List.map_append, ← List.append_assoc, List.takeWhile_append_dropWhile,
        List.map_cons, List.append_assoc, List.singleton_append]

/-- C7 counterexample: the claim promises non-decreasing emission timestamps
for *every* input sequence; feeding records timestamped 1000 then 500 with
`--delay-ms 0` emits output timestamps 1000 then 500 — a decreasing pair —
because the late record's `outTs = 500` is already below the watermark 1000
and flushes immediately. -/
theorem delay_emission_order_counterexample :
    ((delayRun false 0 { queue := [], watermark := none }
        [(0, .vobj (.ofList [("meta", .vobj (.ofList [("timestamp", .vnum 1000)])),
            ("data", .vobj .onil)])),
         (0, .vobj (.ofList [("meta", .vobj (.ofList [("timestamp", .vnum 500)])),
            ("data", .vobj .onil)]))]).2).map metaTsRaw =
      [.vnum 1000, .vnum 500] ∧
    ¬ ((1000 : ℚ) ≤ 500) := by
  exact ⟨by decide, by decide⟩

/-- C7 (amended): (1) every record the stdin handler emits carries a numeric
`meta.timestamp` already covered by the updated watermark — the guard itself
is unconditional; (2) the claimed FIFO behaviour holds for *non-decreasing*
input timestamps (the general claim fails, see the counterexample): when
every input record's `meta.timestamp` is numeric and the sequence
`t_1 ≤ … ≤ t_n` is sorted, the read-phase emissions followed by the EOF
flush carry exactly `t_1 + D, …, t_n + D` in order, and the EOF hook reports
the drained-queue exit. -/
theorem delay_watermark_guard_and_sorted_fifo :
    (∀ tagOn D now st obj e, e ∈ (delayIngest tagOn D now st obj).2 →
        ∃ q, metaTsRaw e = .vnum q ∧
          wmGe (delayIngest tagOn D now st obj).1.watermark q = true) ∧
    (∀ tagOn D inputs tsL,
        inputs.map (fun p => recTs p.2) = tsL.map some →
        List.Pairwise (· ≤ ·) tsL →
        ((delayRun tagOn D { queue := [], watermark := none } inputs).2 ++
            (delayFinish tagOn
              (delayRun tagOn D { queue := [], watermark := none } inputs).1).1).map
              metaTsRaw =
          tsL.map (fun t => JVal.vnum (qadd t D)) ∧
        (delayFinish tagOn
          (delayRun tagOn D { queue := [], watermark := none } inputs).1).2 = true) := by
  constructor
  · intro tagOn D now st obj e he
    have hkey : ∀ (wm : Option ℚ) (q : List (ℚ × JVal)) (e : JVal),
        e ∈ (flushReady tagOn wm q).2 → ∃ x, metaTsRaw e = .vnum x ∧ wmGe wm x = true := by
      intro wm q e he
      rw [flushReady_eq] at he
      obtain ⟨it, hit, rfl⟩ := List.mem_map.mp he
      have hp := List.mem_takeWhile_imp hit
      exact ⟨it.1, emitItem_ts tagOn it, hp⟩
    exact hkey _ _ e he
  · intro tagOn D inputs tsL hmap hpw
    refine ⟨?_, rfl⟩
    have hpair0 : List.Pairwise (· ≤ ·)
        ((({ queue := [], watermark := none } : DelayState).queue.map Prod.fst) ++
          tsL.map (fun t => qadd t D)) := by
      refine List.Pairwise.map _ ?_ hpw
      intro a b hab
      rw [qadd_eq, qadd_eq]
      exact add_le_add_right hab D
    have hwm0 : ∀ u ∈ tsL, wmLeB (none : Option ℚ) u = true := fun u _ => rfl
    have h := delayRun_fifo_aux tagOn D inputs tsL { queue := [], watermark := none }
      hmap hpair0 hwm0
    simpa [delayFinish, List.map_map, Function.comp_def] using h

/-- C7 witness: the spec worked example — records timestamped 1000 and 1010
with `--delay-ms 50`: the read-phase emissions plus the EOF flush carry
timestamps 1050 and 1060 in order, and the EOF hook exits. -/
theorem delay_watermark_guard_and_sorted_fifo_witness :
    ((delayRun true 50 { queue := [], watermark := none }
        [(0, .vobj (.ofList [("meta", .vobj (.ofList [("timestamp", .vnum 1000)])),
            ("data", .vobj .onil)])),
         (0, .vobj (.ofList [("meta", .vobj (.ofList [("timestamp", .vnum 1010)])),
            ("data", .vobj .onil)]))]).2 ++
        (delayFinish true (delayRun true 50 { queue := [], watermark := none }
          [(0, .vobj (.ofList [("meta", .vobj (.ofList [("timestamp", .vnum 1000)])),
              ("data", .vobj .onil)])),
           (0, .vobj (.ofList [("meta", .vobj (.ofList [("timestamp", .vnum 1010)])),
              ("data", .vobj .onil)]))]).1).1).map metaTsRaw =
      [.vnum 1050, .vnum 1060] ∧
    (delayFinish true (delayRun true 50 { queue := [], watermark := none }
        [(0, .vobj (.ofList [("meta", .vobj (.ofList [("timestamp", .vnum 1000)])),
            ("data", .vobj .onil)])),
         (0, .vobj (.ofList [("meta", .vobj (.ofList [("timestamp", .vnum 1010)])),
            ("data", .vobj .onil)]))]).1).2 = true := by
  have h := delay_watermark_guard_and_sorted_fifo.2 true 50
    [(0, .vobj (.ofList [("meta", .vobj (.ofList [("timestamp", .vnum 1000)])),
        ("data", .vobj .onil)])),
     (0, .vobj (.ofList [("meta", .vobj (.ofList [("timestamp", .vnum 1010)])),
        ("data", .vobj .onil)]))] [1000, 1010] (by decide) (by decide)
  refine ⟨?_, h.2⟩
  rw [h.1]
  decide

/-- C10 witness: `checkFields` unset, tolerance `0`, remembered data
`\x7ba:1, b:2\x7d`; the record `\x7bdata: \x7ba:1\x7d\x7d` (key `b` disappeared) is dropped
and the remembered data is untouched. -/
theorem dedup_key_subset_dropped_state_preserved_witness :
    dedupStep true 0 none []
      (some (.ofList [("a", .vnum 1), ("b", .vnum 2)]))
      (.vobj (.ofList [("meta", .vobj .onil), ("data", .vobj (.ofList [("a", .vnum 1)]))])) =
      (none, some (.ofList [("a", .vnum 1), ("b", .vnum 2)])) :=
  dedup_key_subset_dropped_state_preserved.1 true 0 []
    (.ofList [("a", .vnum 1), ("b", .vnum 2)])
    (.vobj (.ofList [("meta", .vobj .onil), ("data", .vobj (.ofList [("a", .vnum 1)]))]))
    (.ofList [("a", .vnum 1)]) (by decide) (by decide)
